import Mathlib

/-!
A verification development for the `bench` tool (cznic/bench), a sequential
benchmark orchestrator: it scans Go test sources for `func Benchmark...`
declarations, runs `go test -run NONE -bench ^name$` once per identifier,
parses the per-run output, accumulates the total elapsed duration from each
run's trailer line and re-emits the results followed by a `PASS` marker and
a `go test`-style trailer.

The development shallowly embeds the operational core of the two program
variants in the repository (`main.go`, and the fuller variant embedded in
`README.md` which additionally normalizes result lines with
`golang.org/x/tools/benchmark/parse`), together with the external stdlib
functions the program's behaviour depends on: `time.ParseDuration`,
`time.Duration.String`, `strconv.Atoi`, `strconv.ParseUint`, and the
decimal grammar of `strconv.ParseFloat`.  Strings are modelled as `List
Char` of the bytes/runes; machine-integer overflow checks of the Go code
are modelled by explicit comparisons against `2^63 - 1` on `Nat`.
-/

namespace Bench

/-- Strings are modelled as lists of characters. -/
abbrev Str := List Char

/-- Go's `'0' <= c && c <= '9'` test used by the duration/number parsers. -/
def isDig (c : Char) : Bool := '0' ≤ c ∧ c ≤ '9'

/-- The character for a decimal digit `d < 10` (Go's `byte(d) + '0'`). -/
def digitChar (d : Nat) : Char := Char.ofNat ('0'.toNat + d)

/-- Decimal value of a digit string read most-significant first, starting
from accumulator `x` (the accumulation pattern of Go's `leadingInt`). -/
def decVal (x : Nat) (ds : Str) : Nat :=
  ds.foldl (fun a c => a * 10 + (c.toNat - '0'.toNat)) x

/-- `1<<63 - 1`, the bound used by Go's int64 overflow checks. -/
def i63 : Nat := 2 ^ 63 - 1

/-- Fuel-driven core of decimal formatting (Go's `fmtInt`, which writes the
digits of `u`, producing `"0"` for zero). -/
def fmtIntAux : Nat → Nat → Str → Str
  | 0, _, acc => acc
  | fuel + 1, u, acc =>
    if u < 10 then digitChar u :: acc
    else fmtIntAux fuel (u / 10) (digitChar (u % 10) :: acc)

/-- Decimal representation of `u` (Go's `fmtInt` / `%v` of an unsigned). -/
def fmtInt (u : Nat) : Str := fmtIntAux (u + 1) u []

/-!  Model of Go's `time.ParseDuration` (stdlib, as of the repository's
2016 era).  The parser's int64 arithmetic and its overflow checks are
modelled on `Nat` with explicit comparisons against `i63 = 2^63-1`; the
one float64 step of the original (`int64(float64(f) * (float64(unit) /
scale))`, adding a fractional component) is modelled by the exact integer
quotient `f * unit / scale`, which coincides with the float computation on
every value produced by `time.Duration.String`.  -/

/-- Go's `leadingInt`: consume leading decimal digits into an int64
accumulator, failing on overflow; returns the value and the rest. -/
def leadingInt : Str → Nat → Option (Nat × Str)
  | [], x => some (x, [])
  | c :: s, x =>
    if isDig c then
      if x > i63 / 10 then none
      else
        let y := x * 10 + (c.toNat - '0'.toNat)
        if y > i63 then none else leadingInt s y
    else some (x, c :: s)

/-- Go's `leadingFraction`: consume digits after the decimal point into
`x` with a power-of-ten `scale`, silently discarding digits once the
accumulator would overflow. -/
def leadingFraction : Str → Nat → Nat → Bool → Nat × Nat × Str
  | [], x, scale, _ => (x, scale, [])
  | c :: s, x, scale, ovf =>
    if isDig c then
      if ovf then leadingFraction s x scale ovf
      else if x > i63 / 10 then leadingFraction s x scale true
      else
        let y := x * 10 + (c.toNat - '0'.toNat)
        if y > i63 then leadingFraction s x scale true
        else leadingFraction s y (scale * 10) false
    else (x, scale, c :: s)

/-- Number of leading characters of `s` that are neither `'.'` nor a
digit: the extent of the unit token in `ParseDuration`'s main loop. -/
def unitLen : Str → Nat
  | [] => 0
  | c :: s => if c = '.' ∨ isDig c then 0 else unitLen s + 1

/-- Go's `unitMap`: nanoseconds per duration unit. -/
def unitMap (u : Str) : Option Nat :=
  if u = ['n', 's'] then some 1
  else if u = ['u', 's'] then some 1000
  else if u = ['µ', 's'] then some 1000
  else if u = ['μ', 's'] then some 1000
  else if u = ['m', 's'] then some 1000000
  else if u = ['s'] then some 1000000000
  else if u = ['m'] then some 60000000000
  else if u = ['h'] then some 3600000000000
  else none

/-- The optional fractional part `(\.[0-9]*)?` of one component of a
duration: returns `(f, scale, rest, post)` as in Go's parser. -/
def pdFrac : Str → Nat × Nat × Str × Bool
  | '.' :: s1 =>
    match leadingFraction s1 0 1 false with
    | (f, scale, s2) => (f, scale, s2, decide (s2.length ≠ s1.length))
  | s => (0, 1, s, false)

/-- The main loop of `ParseDuration`, consuming one
`[0-9]*(\.[0-9]*)?unit` component per iteration and accumulating
nanoseconds in `d`; `fuel` bounds the number of iterations (the caller
passes the string length, which suffices since every iteration consumes
at least one character). -/
def pdLoop : Nat → Str → Nat → Option Nat
  | _, [], d => some d
  | 0, _ :: _, _ => none
  | fuel + 1, c :: s0, d =>
    if ¬ (c = '.' ∨ isDig c) then none
    else
      match leadingInt (c :: s0) 0 with
      | none => none
      | some (v, s1) =>
        let pre : Bool := decide (s1.length ≠ s0.length + 1)
        match pdFrac s1 with
        | (f, scale, s2, post) =>
          if pre = false ∧ post = false then none
          else
            let i := unitLen s2
            if i = 0 then none
            else
              match unitMap (s2.take i) with
              | none => none
              | some unit =>
                if v > i63 / unit then none
                else
                  let v2 := v * unit + f * unit / scale
                  if v2 > i63 then none
                  else if d + v2 > i63 then none
                  else pdLoop fuel (s2.drop i) (d + v2)

/-- `ParseDuration` after the optional sign: the special case `"0"`, the
empty-string error, and the component loop. -/
def pdBody (s : Str) : Option Nat :=
  if s = ['0'] then some 0
  else if s = [] then none
  else pdLoop s.length s 0

/-- Model of Go's `time.ParseDuration`, in nanoseconds: consume an
optional sign (`if c == '-' || c == '+'` in the original), negating the
result for `'-'`.  `none` models a returned error. -/
def parseDuration (s : Str) : Option Int :=
  match s with
  | [] => (pdBody []).map (fun u : Nat => (u : Int))
  | c :: r =>
    if c = '-' ∨ c = '+' then
      (pdBody r).map (fun u : Nat => if c = '-' then -(u : Int) else (u : Int))
    else
      (pdBody (c :: r)).map (fun u : Nat => (u : Int))

/-!  Model of Go's `time.Duration.String`.  -/

/-- Core of Go's `fmtFrac`: emit `prec` digits of `v` least-significant
first, skipping trailing zeros (`acc = []` plays the role of the `print`
flag still being off); returns the digits and `v / 10^prec`. -/
def fmtFracAux : Nat → Nat → Str → Str × Nat
  | 0, v, acc => (acc, v)
  | prec + 1, v, acc =>
    fmtFracAux prec (v / 10)
      (if acc = [] ∧ v % 10 = 0 then [] else digitChar (v % 10) :: acc)

/-- Go's `fmtFrac`: the fraction `v/10^prec` rendered as `"." ++ digits`
with trailing zeros omitted (and the dot omitted for a zero fraction),
together with the integer part `v / 10^prec`. -/
def fmtFrac (v prec : Nat) : Str × Nat :=
  match fmtFracAux prec v [] with
  | (ds, v') => (if ds = [] then [] else '.' :: ds, v')

/-- Model of Go's `time.Duration.String` on a signed nanosecond count. -/
def durationString (d : Int) : Str :=
  let u0 := d.natAbs
  let core :=
    if u0 < 1000000000 then
      if u0 = 0 then ['0', 's']
      else if u0 < 1000 then fmtInt u0 ++ ['n', 's']
      else if u0 < 1000000 then
        match fmtFrac u0 3 with
        | (fr, u') => fmtInt u' ++ fr ++ ['µ', 's']
      else
        match fmtFrac u0 6 with
        | (fr, u') => fmtInt u' ++ fr ++ ['m', 's']
    else
      match fmtFrac u0 9 with
      | (fr, sec) =>
        let secPart := fmtInt (sec % 60) ++ fr ++ ['s']
        let m := sec / 60
        if m = 0 then secPart
        else
          (if m / 60 = 0 then [] else fmtInt (m / 60) ++ ['h'])
            ++ fmtInt (m % 60) ++ ['m'] ++ secPart
  if d < 0 then '-' :: core else core

/-- The last `p` decimal digits of `v`, zero-padded to width `p`
(most-significant first): reference form for reasoning about `fmtFrac`. -/
def padDigits : Nat → Nat → Str
  | 0, _ => []
  | p + 1, v => padDigits p (v / 10) ++ [digitChar (v % 10)]

/-- Remove trailing `'0'` characters. -/
def rstrip0 (xs : Str) : Str := (xs.reverse.dropWhile (fun c => c = '0')).reverse


/-!  The Identifier Scanner (`main.go` lines 115-132; identical in the
`README.md`-embedded variant): split each test file on newlines, keep the
lines starting with `func Benchmark`, and slice out the declared name.
`bytes.Index` returning `-1` makes the Go slice expression
`v[:bytes.Index(v, []byte{'('})]` panic, modelled by `Except.error`.  -/

/-- `bytes.Split(b, []byte{'\n'})`, accumulator form. -/
def splitNlAux : Str → Str → List Str
  | [], cur => [cur.reverse]
  | c :: rest, cur =>
    if c = '\n' then cur.reverse :: splitNlAux rest []
    else splitNlAux rest (c :: cur)

/-- `bytes.Split(b, []byte{'\n'})`. -/
def splitNl (b : Str) : List Str := splitNlAux b []

/-- `bytes.HasPrefix(s, p)` (arguments here: the candidate first). -/
def startsWith : Str → Str → Bool
  | [], _ => true
  | _ :: _, [] => false
  | p :: ps, c :: cs => p = c ∧ startsWith ps cs

/-- `bytes.Index` for a one-byte separator: `none` models `-1`. -/
def idxOf (c : Char) : Str → Option Nat
  | [] => none
  | x :: xs => if x = c then some 0 else (idxOf c xs).map (· + 1)

/-- One line of the scan loop: `none` = line skipped, `some (.error ())`
= the slice-bound panic on a `func Benchmark` line with no `'('`,
`some (.ok id)` = an extracted identifier (`v[len("func "):]` up to the
first `'('`). -/
def benchLineId (v : Str) : Option (Except Unit Str) :=
  if startsWith "func Benchmark".data v then
    some (match idxOf '(' (v.drop 5) with
          | none => Except.error ()
          | some i => Except.ok ((v.drop 5).take i))
  else none

/-- Scan the lines of one file in order, collecting identifiers. -/
def collectLines : List Str → Except Unit (List Str)
  | [] => .ok []
  | v :: rest =>
    match benchLineId v with
    | none => collectLines rest
    | some (.error e) => .error e
    | some (.ok id) =>
      match collectLines rest with
      | .error e => .error e
      | .ok ids => .ok (id :: ids)

/-- Scan one file's contents. -/
def scanFile (b : Str) : Except Unit (List Str) := collectLines (splitNl b)

/-- The Scanner over the test files in the order supplied. -/
def scanner : List Str → Except Unit (List Str)
  | [] => .ok []
  | f :: fs =>
    match scanFile f with
    | .error e => .error e
    | .ok ids =>
      match scanner fs with
      | .error e => .error e
      | .ok rest => .ok (ids ++ rest)

/-- The specification's description of per-line extraction, written from
the claim's words (one identifier per line that begins with
`func Benchmark`, the identifier being the text from the start of the
name up to but not including the first `'('`), for comparison with the
code-derived `scanner`. -/
def lineIdSpec (v : Str) : Option Str :=
  if startsWith "func Benchmark".data v then
    some ((v.drop 5).takeWhile (fun c => c ≠ '('))
  else none

/-!  Model of `golang.org/x/tools/benchmark/parse.ParseLine` and the
`strconv` parsers it uses.  `float64` values are carried as their exact
decimal mantissa/exponent (sign, `m`, `e`, meaning `±m·10^e`); the
binary-float rounding of `strconv.ParseFloat` is idealized to this exact
value, and its out-of-range error to the IEEE double overflow threshold
(the `Inf`/`NaN` spellings, which never occur in benchmark output, are
not modelled).  -/

/-- `strconv.Atoi` = `ParseInt(s, 10, 64)`: optional sign, non-empty
digit string, int64 range check. -/
def atoiGo (s : Str) : Option Int :=
  match (match s with
         | '-' :: r => (true, r)
         | '+' :: r => (false, r)
         | _ => (false, s)) with
  | (neg, s1) =>
    if s1 = [] then none
    else if ¬ s1.all isDig then none
    else
      let un := decVal 0 s1
      if un > 2 ^ 64 - 1 then none
      else if ¬ neg ∧ un ≥ 2 ^ 63 then none
      else if neg ∧ un > 2 ^ 63 then none
      else some (if neg then -(un : Int) else (un : Int))

/-- `strconv.ParseUint(s, 10, 64)`: no sign permitted, non-empty digit
string, uint64 range check. -/
def parseUintGo (s : Str) : Option Nat :=
  if s = [] then none
  else if ¬ s.all isDig then none
  else
    let un := decVal 0 s
    if un > 2 ^ 64 - 1 then none else some un

/-- Out-of-range test for the exact decimal `±m·10^e` against the IEEE
double overflow threshold `2^1024 - 2^970` (maximum finite double plus
half an ulp). -/
def floatOverflow (m : Nat) (e : Int) : Bool :=
  if 0 ≤ e then decide ((2 ^ 1024 - 2 ^ 970 : Nat) ≤ m * 10 ^ e.toNat)
  else decide ((2 ^ 1024 - 2 ^ 970) * 10 ^ (-e).toNat ≤ m)

/-- The decimal grammar of `strconv.ParseFloat`:
`[sign](digits[.digits]|.digits)[eE[sign]digits]`, the whole string
consumed; returns the exact value as `(neg, mantissa, exp10)`. -/
def parseFloatGo (s : Str) : Option (Bool × Nat × Int) :=
  match (match s with
         | '-' :: r => (true, r)
         | '+' :: r => (false, r)
         | _ => (false, s)) with
  | (neg, s1) =>
    let ip := s1.takeWhile isDig
    let r1 := s1.dropWhile isDig
    match (match r1 with
           | '.' :: t => (t.takeWhile isDig, t.dropWhile isDig)
           | _ => (([] : Str), r1)) with
    | (fp, r2) =>
      if ip = [] ∧ fp = [] then none
      else
        let mant := decVal (decVal 0 ip) fp
        let e0 : Int := -(fp.length : Int)
        match r2 with
        | [] => if floatOverflow mant e0 then none else some (neg, mant, e0)
        | c :: t =>
          if c = 'e' ∨ c = 'E' then
            match (match t with
                   | '-' :: q => (true, q)
                   | '+' :: q => (false, q)
                   | _ => (false, t)) with
            | (eneg, t1) =>
              let ed := t1.takeWhile isDig
              let t2 := t1.dropWhile isDig
              if ed = [] ∨ t2 ≠ [] then none
              else
                let e1 : Int :=
                  e0 + (if eneg then -(decVal 0 ed : Int) else (decVal 0 ed : Int))
                if floatOverflow mant e1 then none else some (neg, mant, e1)
          else none

/-- `strings.Fields` whitespace test, for the ASCII space characters
(`unicode.IsSpace` on the byte range occurring in `go test` output). -/
def isSpaceGo (c : Char) : Bool :=
  c = ' ' ∨ c = '\t' ∨ c = '\n' ∨ c = '\x0b' ∨ c = '\x0c' ∨ c = '\r'

/-- `strings.Fields`, accumulator form. -/
def fieldsAux : Str → Str → List Str
  | [], cur => if cur = [] then [] else [cur.reverse]
  | c :: s, cur =>
    if isSpaceGo c then
      if cur = [] then fieldsAux s [] else cur.reverse :: fieldsAux s []
    else fieldsAux s (c :: cur)

/-- `strings.Fields`: split around runs of whitespace, no empty fields. -/
def fields (s : Str) : List Str := fieldsAux s []

/-- `parse.Benchmark`: the normalized measurement record.  `measured` is
the bit set `NsPerOp = 1`, `MBPerS = 2`, `AllocedBytesPerOp = 4`,
`AllocsPerOp = 8`. -/
structure Benchmark where
  name : Str
  n : Int
  nsNeg : Bool := false
  nsM : Nat := 0
  nsE : Int := 0
  mbNeg : Bool := false
  mbM : Nat := 0
  mbE : Int := 0
  allocedBytesPerOp : Nat := 0
  allocsPerOp : Nat := 0
  measured : Nat := 0
deriving DecidableEq

/-- `(*Benchmark).parseMeasurement`: recognize one `quantity unit` pair,
setting the matching field and bit only when the number parses. -/
def parseMeasurement (b : Benchmark) (quant unit : Str) : Benchmark :=
  if unit = "ns/op".data then
    match parseFloatGo quant with
    | some (neg, m, e) =>
      { b with nsNeg := neg, nsM := m, nsE := e, measured := b.measured ||| 1 }
    | none => b
  else if unit = "MB/s".data then
    match parseFloatGo quant with
    | some (neg, m, e) =>
      { b with mbNeg := neg, mbM := m, mbE := e, measured := b.measured ||| 2 }
    | none => b
  else if unit = "B/op".data then
    match parseUintGo quant with
    | some v => { b with allocedBytesPerOp := v, measured := b.measured ||| 4 }
    | none => b
  else if unit = "allocs/op".data then
    match parseUintGo quant with
    | some v => { b with allocsPerOp := v, measured := b.measured ||| 8 }
    | none => b
  else b

/-- `parse.ParseLine`: at least four whitespace-separated fields, a name
starting with `Benchmark`, an iteration count, then the measurement
pairs `(fields[2i], fields[2i+1])` for `1 ≤ i < len/2`. -/
def parseLine (l : Str) : Option Benchmark :=
  let fs := fields l
  if fs.length < 4 then none
  else if ¬ startsWith "Benchmark".data (fs.getD 0 []) then none
  else
    match atoiGo (fs.getD 1 []) with
    | none => none
    | some n =>
      some (((List.range (fs.length / 2)).drop 1).foldl
        (fun b i => parseMeasurement b (fs.getD (2 * i) []) (fs.getD (2 * i + 1) []))
        { name := fs.getD 0 [], n := n })

/-!  Output formatting of the `README.md`-embedded variant (its
`fmt.Printf` calls after a successful `parse.ParseLine`).  -/

/-- Left-pad with spaces to width `w` (`%15s`, `%15d` shapes). -/
def padLeftStr (s : Str) (w : Nat) : Str := List.replicate (w - s.length) ' ' ++ s

/-- Right-pad with spaces to width `w` (`%*s` with negative width). -/
def padRightStr (s : Str) (w : Nat) : Str := s ++ List.replicate (w - s.length) ' '

/-- `%d` of an int64. -/
def intStr (i : Int) : Str := (if i < 0 then ['-'] else []) ++ fmtInt i.natAbs

/-- Two zero-padded decimal digits (the fraction part of `%.2f`). -/
def pad2 (n : Nat) : Str := if n < 10 then ['0', digitChar n] else fmtInt n

/-- `%.2f` of a non-negative value given in hundredths. -/
def render2f (v : Nat) : Str := fmtInt (v / 100) ++ '.' :: pad2 (v % 100)

/-- Round the exact decimal `m·10^e` to hundredths (the decimal value
`%.2f` renders; rounding of the idealized exact value). -/
def hundredths (m : Nat) (e : Int) : Nat :=
  if 0 ≤ e + 2 then m * 10 ^ (e + 2).toNat
  else (2 * m + 10 ^ (-(e + 2)).toNat) / (2 * 10 ^ (-(e + 2)).toNat)

/-- `fmt.Sprintf("%.2f", x)` on the record's exact decimal value. -/
def floatStr2 (neg : Bool) (m : Nat) (e : Int) : Str :=
  (if neg then ['-'] else []) ++ render2f (hundredths m e)

/-- The ns/op display rule: `if strings.Index(s, ".") > 2 { s = s[:len(s)-3] }`. -/
def truncNs (s : Str) : Str :=
  match idxOf '.' s with
  | none => s
  | some i => if 2 < i then s.take (s.length - 3) else s

/-- One emitted record line: `%*s%15d` then each measured field
(`%15s ns/op` after truncation, `%15.2f MB/s`, `%15v B/op`,
`%15v allocs/op`). -/
def formatBench (width : Nat) (b : Benchmark) : Str :=
  padRightStr b.name (width + 4) ++ padLeftStr (intStr b.n) 15
    ++ (if b.measured &&& 1 ≠ 0 then
          padLeftStr (truncNs (floatStr2 b.nsNeg b.nsM b.nsE)) 15 ++ (' ' :: "ns/op".data)
        else [])
    ++ (if b.measured &&& 2 ≠ 0 then
          padLeftStr (floatStr2 b.mbNeg b.mbM b.mbE) 15 ++ (' ' :: "MB/s".data)
        else [])
    ++ (if b.measured &&& 4 ≠ 0 then
          padLeftStr (fmtInt b.allocedBytesPerOp) 15 ++ (' ' :: "B/op".data)
        else [])
    ++ (if b.measured &&& 8 ≠ 0 then
          padLeftStr (fmtInt b.allocsPerOp) 15 ++ (' ' :: "allocs/op".data)
        else [])

/-- `width`: the maximum identifier length (`mathutil.Max` fold in the
`README.md` variant). -/
def widthOf (ids : List Str) : Nat := ids.foldl (fun w v => max w v.length) 0

/-!  The per-identifier run loop.  An external invocation's observable
behaviour is its combined output split on newlines plus its exit status
(`GoOutput`).  `processInv` is one iteration of the `README.md` variant's
loop body (`main.go` lines 134-185 of that variant): the fatal
conditions are modelled as `Except.error` (the program's `log.Fatal`),
and a result line rejected by `parse.ParseLine` falls back to printing
the raw line.  -/

/-- One external invocation's observable result: `bytes.Split` of
`cmd.CombinedOutput()` on newlines, and whether `Run` returned no
error. -/
structure GoOutput where
  exitOk : Bool
  lines : List Str
deriving DecidableEq

/-- The fatal-error categories of the loop body, in code order. -/
inductive RunError
  | execFail | badFormat | badShape | badDuration
deriving DecidableEq

/-- The trailer-line marker `"ok  \t" + importPath + "\t"`. -/
def okPref (ip : Str) : Str := "ok  \t".data ++ ip ++ ['\t']

/-- One loop iteration of the `README.md` variant: exit-status check,
`len(a) < 3` check, shape checks on the first three lines, trailer
duration parse, then the normalize-or-passthrough of the result line.
Returns the printed line and the parsed duration. -/
def processInv (ip : Str) (width : Nat) (id : Str) (g : GoOutput) :
    Except RunError (Str × Int) :=
  if ¬ g.exitOk then .error .execFail
  else
    let a := g.lines
    if a.length < 3 then .error .badFormat
    else
      let p := okPref ip
      if ¬ (startsWith id (a.getD 0 []) ∧ a.getD 1 [] = "PASS".data
            ∧ startsWith p (a.getD 2 [])) then .error .badShape
      else
        match parseDuration ((a.getD 2 []).drop p.length) with
        | none => .error .badDuration
        | some d =>
          .ok ((match parseLine (a.getD 0 []) with
                | none => a.getD 0 []
                | some b => formatBench width b), d)

/-- The run loop over the identifiers paired with their invocations'
results, accumulating printed lines (reversed in `acc`) and the total
duration `t`; on a fatal error the lines printed so far are returned
with the error (nothing further is printed). -/
def benchLoopAux (ip : Str) (width : Nat) :
    List Str → Int → List (Str × GoOutput) → Except (RunError × List Str) (List Str × Int)
  | acc, t, [] => .ok (acc.reverse, t)
  | acc, t, (id, g) :: rest =>
    match processInv ip width id g with
    | .error e => .error (e, acc.reverse)
    | .ok (line, d) => benchLoopAux ip width (line :: acc) (t + d) rest

/-- The whole reporting phase: the per-identifier lines, then `PASS` and
the `ok  \t<path>\t<total>` trailer; on abort, only the lines already
printed. -/
def runBench (ip : Str) (width : Nat) (invs : List (Str × GoOutput)) :
    Except (RunError × List Str) (List Str) :=
  match benchLoopAux ip width [] 0 invs with
  | .error e => .error e
  | .ok (ls, t) => .ok (ls ++ ["PASS".data, okPref ip ++ durationString t])

/-- The duration carried by an invocation's trailer line (third output
line after the `ok  \t<path>\t` marker). -/
def trailerDur (ip : Str) (g : GoOutput) : Option Int :=
  parseDuration ((g.lines.getD 2 []).drop (okPref ip).length)

/-- The fatal conditions of one loop iteration, as the specification
enumerates them. -/
def fatalCond (ip id : Str) (g : GoOutput) : Prop :=
  g.exitOk = false ∨ g.lines.length < 3
    ∨ startsWith id (g.lines.getD 0 []) = false
    ∨ g.lines.getD 1 [] ≠ "PASS".data
    ∨ startsWith (okPref ip) (g.lines.getD 2 []) = false
    ∨ (trailerDur ip g).isNone = true

/-!  The `main.go` variant (no result-line normalization; every first
line is re-printed verbatim), modelled with the commands it issues so
that the invocation pattern is part of the model.  -/

/-- The `go` tool argument list built per identifier (`main.go` lines
136-139). -/
def argsFor (benchmem : Bool) (v : Str) : List Str :=
  let args := ["test".data, "-run".data, "NONE".data, "-bench".data, '^' :: (v ++ ['$'])]
  if benchmem then args ++ ["-benchmem".data] else args

/-- One loop iteration of the `main.go` variant: the same checks, the
parsed trailer duration on success. -/
def processInvPlain (ip id : Str) (g : GoOutput) : Option Int :=
  if ¬ g.exitOk then none
  else
    let a := g.lines
    if a.length < 3 then none
    else
      let p := okPref ip
      if ¬ (startsWith id (a.getD 0 []) ∧ a.getD 1 [] = "PASS".data
            ∧ startsWith p (a.getD 2 [])) then none
      else parseDuration ((a.getD 2 []).drop p.length)

/-- The `main.go` run loop: issues one `go` invocation per identifier in
order (`env` maps an argument list to the external tool's observable
result) and stops at the first fatal condition.  Returns the issued
command lines and, on success, the printed first lines with the total
duration. -/
def runGoAux (bm : Bool) (ip : Str) (env : List Str → GoOutput) :
    List Str → List (List Str) × Except Unit (List Str × Int)
  | [] => ([], .ok ([], 0))
  | v :: rest =>
    let ags := argsFor bm v
    let g := env ags
    match processInvPlain ip v g with
    | none => ([ags], .error ())
    | some d =>
      match runGoAux bm ip env rest with
      | (cmds, .error e) => (ags :: cmds, .error e)
      | (cmds, .ok (ls, t)) => (ags :: cmds, .ok ((g.lines.getD 0 []) :: ls, d + t))

/-- End-to-end `main.go` model from the scanned files: `none` is any
fatal exit (non-zero status), `some (cmds, output)` the issued commands
and the full standard output on success. -/
def benchMain (bm : Bool) (ip : Str) (env : List Str → GoOutput) (files : List Str) :
    Option (List (List Str) × List Str) :=
  match scanner files with
  | .error _ => none
  | .ok ids =>
    match runGoAux bm ip env ids with
    | (_, .error _) => none
    | (cmds, .ok (ls, t)) => some (cmds, ls ++ ["PASS".data, okPref ip ++ durationString t])



deriving instance DecidableEq for Except

instance (ip id : Str) (g : GoOutput) : Decidable (fatalCond ip id g) := by
  unfold fatalCond
  infer_instance


end Bench

namespace Bench

theorem fmtIntAux_acc (fuel : Nat) : ∀ (u : Nat) (acc : Str),
    fmtIntAux fuel u acc = fmtIntAux fuel u [] ++ acc := by
  induction fuel with
  | zero => intro u acc; simp [fmtIntAux]
  | succ f ih =>
    intro u acc
    by_cases h : u < 10
    · simp [fmtIntAux, h]
    · simp only [fmtIntAux, h, if_false]
      rw [ih (u / 10) (digitChar (u % 10) :: acc), ih (u / 10) [digitChar (u % 10)]]
      simp

theorem fmtIntAux_fuel (f₁ : Nat) : ∀ (f₂ u : Nat) (acc : Str), u < f₁ → u < f₂ →
    fmtIntAux f₁ u acc = fmtIntAux f₂ u acc := by
  induction f₁ with
  | zero => intro f₂ u acc h; omega
  | succ g ih =>
    intro f₂ u acc h₁ h₂
    obtain ⟨g₂, rfl⟩ : ∃ g₂, f₂ = g₂ + 1 := ⟨f₂ - 1, by omega⟩
    by_cases h : u < 10
    · simp [fmtIntAux, h]
    · simp only [fmtIntAux, h, if_false]
      have hd : u / 10 < u := Nat.div_lt_self (by omega) (by omega)
      exact ih g₂ (u / 10) _ (by omega) (by omega)

/-- One-step unfolding of `fmtInt`. -/
theorem fmtInt_eq (u : Nat) :
    fmtInt u = if u < 10 then [digitChar u] else fmtInt (u / 10) ++ [digitChar (u % 10)] := by
  by_cases h : u < 10
  · simp [fmtInt, fmtIntAux, h]
  · simp only [fmtInt, fmtIntAux, h, if_false]
    have hd : u / 10 < u := Nat.div_lt_self (by omega) (by omega)
    rw [fmtIntAux_acc u (u / 10) [digitChar (u % 10)],
        fmtIntAux_fuel u (u / 10 + 1) (u / 10) [] (by omega) (by omega)]
    rfl

theorem digitChar_toNat {d : Nat} (h : d < 10) : (digitChar d).toNat = 48 + d := by
  interval_cases d <;> decide

theorem isDig_digitChar {d : Nat} (h : d < 10) : isDig (digitChar d) = true := by
  interval_cases d <;> decide

theorem digitChar_ne_zero {d : Nat} (h0 : d ≠ 0) (h : d < 10) : digitChar d ≠ '0' := by
  interval_cases d <;> simp_all <;> decide

theorem digitChar_ne_dot {d : Nat} (h : d < 10) : digitChar d ≠ '.' := by
  interval_cases d <;> decide

theorem fmtInt_ne_nil (u : Nat) : fmtInt u ≠ [] := by
  rw [fmtInt_eq]
  split <;> simp

theorem fmtInt_digits (u : Nat) : ∀ c ∈ fmtInt u, isDig c = true := by
  induction u using Nat.strong_induction_on with
  | _ u ih =>
    rw [fmtInt_eq]
    by_cases h : u < 10
    · simp only [h, if_true, List.mem_singleton]
      rintro c rfl; exact isDig_digitChar h
    · simp only [h, if_false, List.mem_append, List.mem_singleton]
      rintro c (hc | rfl)
      · exact ih (u / 10) (Nat.div_lt_self (by omega) (by omega)) c hc
      · exact isDig_digitChar (Nat.mod_lt _ (by omega))

theorem decVal_append (x : Nat) (a b : Str) : decVal x (a ++ b) = decVal (decVal x a) b := by
  simp [decVal, List.foldl_append]

theorem decVal_singleton (x : Nat) (c : Char) : decVal x [c] = x * 10 + (c.toNat - 48) := rfl

theorem decVal_ge (ds : Str) : ∀ x : Nat, x ≤ decVal x ds := by
  induction ds with
  | nil => intro x; simp [decVal]
  | cons c t ih =>
    intro x
    have h1 : x ≤ x * 10 + (c.toNat - 48) := by omega
    calc x ≤ x * 10 + (c.toNat - 48) := h1
      _ ≤ decVal (x * 10 + (c.toNat - 48)) t := ih _
      _ = decVal x (c :: t) := rfl

theorem fmtInt_decVal (u : Nat) : decVal 0 (fmtInt u) = u := by
  induction u using Nat.strong_induction_on with
  | _ u ih =>
    rw [fmtInt_eq]
    by_cases h : u < 10
    · simp only [h, if_true]
      rw [decVal_singleton, digitChar_toNat h]
      omega
    · simp only [h, if_false]
      rw [decVal_append, ih (u / 10) (Nat.div_lt_self (by omega) (by omega)),
          decVal_singleton, digitChar_toNat (Nat.mod_lt _ (by omega))]
      omega

theorem fmtInt_length_pos (u : Nat) : 0 < (fmtInt u).length :=
  List.length_pos.mpr (fmtInt_ne_nil u)

theorem fmtInt_length_lt10 {u : Nat} (h : u < 10) : (fmtInt u).length = 1 := by
  rw [fmtInt_eq]; simp [h]

theorem fmtInt_length_ge10 {u : Nat} (h : 10 ≤ u) :
    (fmtInt u).length = (fmtInt (u / 10)).length + 1 := by
  rw [fmtInt_eq]
  simp [Nat.not_lt.mpr h]

theorem fmtInt_length_ge3_iff (u : Nat) : 3 ≤ (fmtInt u).length ↔ 100 ≤ u := by
  constructor
  · intro h
    by_contra hlt
    push_neg at hlt
    by_cases h10 : u < 10
    · rw [fmtInt_length_lt10 h10] at h; omega
    · rw [fmtInt_length_ge10 (by omega), fmtInt_length_lt10 (by omega)] at h
      omega
  · intro h
    rw [fmtInt_length_ge10 (by omega), fmtInt_length_ge10 (by omega)]
    have := fmtInt_length_pos (u / 10 / 10)
    omega

/-- `leadingInt` consumes exactly a leading digit block, stops at the
first non-digit, and computes the block's decimal value; no overflow
occurs when the final value fits in an int64. -/
theorem leadingInt_spec (ds : Str) : ∀ (rest : Str) (x : Nat),
    (∀ c ∈ ds, isDig c = true) → decVal x ds ≤ i63 →
    (rest = [] ∨ ∃ c r, rest = c :: r ∧ isDig c = false) →
    leadingInt (ds ++ rest) x = some (decVal x ds, rest) := by
  induction ds with
  | nil =>
    intro rest x _ _ hrest
    rcases hrest with rfl | ⟨c, r, rfl, hc⟩
    · simp [leadingInt, decVal]
    · simp [leadingInt, hc, decVal]
  | cons c t ih =>
    intro rest x hds hval hrest
    have hc : isDig c = true := hds c (by simp)
    have hvt : decVal x (c :: t) = decVal (x * 10 + (c.toNat - '0'.toNat)) t := rfl
    have hy : x * 10 + (c.toNat - '0'.toNat) ≤ i63 :=
      le_trans (decVal_ge t _) (hvt ▸ hval)
    have hx : ¬ x > i63 / 10 := by
      have h1 : x * 10 ≤ i63 := by omega
      have := (Nat.le_div_iff_mul_le (by norm_num : 0 < 10)).mpr h1
      omega
    have hy' : ¬ x * 10 + (c.toNat - '0'.toNat) > i63 := by omega
    simp only [List.cons_append, leadingInt, hc, if_true, hx, hy', if_false,
      List.append_eq]
    rw [ih rest _ (fun d hd => hds d (by simp [hd])) (hvt ▸ hval) hrest, ← hvt]

/-- `leadingFraction` consumes exactly a leading digit block, stops at
the first non-digit, computes its value and multiplies the scale by ten
per digit; the overflow path is not taken when the value fits. -/
theorem leadingFraction_spec (ds : Str) : ∀ (rest : Str) (x scale : Nat),
    (∀ c ∈ ds, isDig c = true) → decVal x ds ≤ i63 →
    (rest = [] ∨ ∃ c r, rest = c :: r ∧ isDig c = false) →
    leadingFraction (ds ++ rest) x scale false
      = (decVal x ds, scale * 10 ^ ds.length, rest) := by
  induction ds with
  | nil =>
    intro rest x scale _ _ hrest
    rcases hrest with rfl | ⟨c, r, rfl, hc⟩
    · simp [leadingFraction, decVal]
    · simp [leadingFraction, hc, decVal]
  | cons c t ih =>
    intro rest x scale hds hval hrest
    have hc : isDig c = true := hds c (by simp)
    have hvt : decVal x (c :: t) = decVal (x * 10 + (c.toNat - '0'.toNat)) t := rfl
    have hy : x * 10 + (c.toNat - '0'.toNat) ≤ i63 :=
      le_trans (decVal_ge t _) (hvt ▸ hval)
    have hx : ¬ x > i63 / 10 := by
      have h1 : x * 10 ≤ i63 := by omega
      have := (Nat.le_div_iff_mul_le (by norm_num : 0 < 10)).mpr h1
      omega
    have hy' : ¬ x * 10 + (c.toNat - '0'.toNat) > i63 := by omega
    simp only [List.cons_append, leadingFraction, hc, if_true, Bool.false_eq_true,
      if_false, hx, hy', List.append_eq]
    rw [ih rest _ _ (fun d hd => hds d (by simp [hd])) (hvt ▸ hval) hrest, ← hvt]
    simp only [List.length_cons, pow_succ, Prod.mk.injEq, true_and, and_true]
    ring

/-- `unitLen` spans exactly a block of non-digit non-dot characters when
what follows starts with a digit or a dot (or is empty). -/
theorem unitLen_append (us : Str) : ∀ rest : Str,
    (∀ c ∈ us, (c = '.' ∨ isDig c = true) → False) →
    (rest = [] ∨ ∃ c r, rest = c :: r ∧ (c = '.' ∨ isDig c = true)) →
    unitLen (us ++ rest) = us.length := by
  induction us with
  | nil =>
    intro rest _ hrest
    rcases hrest with rfl | ⟨c, r, rfl, hc⟩
    · rfl
    · rcases hc with rfl | hc
      · simp [unitLen]
      · simp [unitLen, hc]
  | cons c t ih =>
    intro rest hus hrest
    have hc : ¬ (c = '.' ∨ isDig c) := by
      intro h
      rcases h with h | h
      · exact hus c (by simp) (Or.inl h)
      · exact hus c (by simp) (Or.inr h)
    simp only [List.cons_append, unitLen, List.append_eq]
    rw [if_neg (by simpa using hc), ih rest (fun d hd => hus d (by simp [hd])) hrest]
    simp

theorem padDigits_length (p : Nat) : ∀ v, (padDigits p v).length = p := by
  induction p with
  | zero => intro v; rfl
  | succ q ih => intro v; simp [padDigits, ih]

theorem padDigits_digits (p : Nat) : ∀ v, ∀ c ∈ padDigits p v, isDig c = true := by
  induction p with
  | zero => intro v c hc; simp [padDigits] at hc
  | succ q ih =>
    intro v c hc
    simp only [padDigits, List.mem_append, List.mem_singleton] at hc
    rcases hc with hc | rfl
    · exact ih _ c hc
    · exact isDig_digitChar (Nat.mod_lt _ (by omega))

theorem mod10_split (p v : Nat) : v % 10 ^ (p + 1) = (v / 10 % 10 ^ p) * 10 + v % 10 := by
  have hp : 0 < (10 : Nat) ^ p := Nat.pos_pow_of_pos p (by omega)
  have h1 : 10 * (v / 10) + v % 10 = v := Nat.div_add_mod v 10
  have h2 : 10 ^ p * (v / 10 / 10 ^ p) + v / 10 % 10 ^ p = v / 10 := Nat.div_add_mod _ _
  have hpow : (10 : Nat) ^ (p + 1) = 10 ^ p * 10 := pow_succ 10 p
  have hv : v = ((v / 10 % 10 ^ p) * 10 + v % 10) + (v / 10 / 10 ^ p) * (10 ^ p * 10) := by
    nlinarith [h1, h2]
  have hlt : (v / 10 % 10 ^ p) * 10 + v % 10 < 10 ^ p * 10 := by
    have := Nat.mod_lt (v / 10) hp
    have := Nat.mod_lt v (show 0 < 10 by omega)
    nlinarith
  calc v % 10 ^ (p + 1)
      = (((v / 10 % 10 ^ p) * 10 + v % 10) + (v / 10 / 10 ^ p) * (10 ^ p * 10)) % (10 ^ p * 10) := by
        rw [← hv, hpow]
    _ = ((v / 10 % 10 ^ p) * 10 + v % 10) % (10 ^ p * 10) := Nat.add_mul_mod_self_right _ _ _
    _ = (v / 10 % 10 ^ p) * 10 + v % 10 := Nat.mod_eq_of_lt hlt

theorem padDigits_decVal (p : Nat) : ∀ v x, decVal x (padDigits p v) = x * 10 ^ p + v % 10 ^ p := by
  induction p with
  | zero => intro v x; simp [padDigits, decVal, Nat.mod_one]
  | succ q ih =>
    intro v x
    have hm : (digitChar (v % 10)).toNat - 48 = v % 10 := by
      rw [digitChar_toNat (Nat.mod_lt _ (by omega))]; omega
    rw [padDigits, decVal_append, ih, decVal_singleton, hm, mod10_split, pow_succ]
    ring

theorem rstrip0_append_zero (xs : Str) : rstrip0 (xs ++ ['0']) = rstrip0 xs := by
  simp [rstrip0, List.dropWhile]

theorem rstrip0_append_ne {c : Char} (xs : Str) (hc : c ≠ '0') :
    rstrip0 (xs ++ [c]) = xs ++ [c] := by
  simp [rstrip0, List.dropWhile, hc]

theorem rstrip0_decomp (xs : Str) :
    ∃ j, xs = rstrip0 xs ++ List.replicate j '0' ∧ (rstrip0 xs).length + j = xs.length := by
  refine ⟨(xs.reverse.takeWhile (fun c => c = '0')).length, ?_, ?_⟩
  · have h2 : xs.reverse.takeWhile (fun c => c = '0')
        = List.replicate (xs.reverse.takeWhile (fun c => c = '0')).length '0' := by
      apply List.eq_replicate_of_mem
      intro b hb
      have := List.mem_takeWhile_imp hb
      simpa using this
    conv_lhs => rw [← xs.reverse_reverse, ← List.takeWhile_append_dropWhile
      (p := fun c => c = '0') (l := xs.reverse)]
    rw [List.reverse_append, h2, List.reverse_replicate]
    simp [rstrip0]
  · have h3 := congrArg List.length
      (List.takeWhile_append_dropWhile (p := fun c => c = '0') (l := xs.reverse))
    simp only [List.length_append, List.length_reverse] at h3
    simp only [rstrip0, List.length_reverse]
    omega

theorem decVal_append_zeros (j : Nat) : ∀ (ys : Str) (x : Nat),
    decVal x (ys ++ List.replicate j '0') = decVal x ys * 10 ^ j := by
  induction j with
  | zero => intro ys x; simp
  | succ k ih =>
    intro ys x
    have h0 : List.replicate (k + 1) '0' = '0' :: List.replicate k '0' := rfl
    rw [h0, show ys ++ '0' :: List.replicate k '0' = (ys ++ ['0']) ++ List.replicate k '0' by simp,
      ih, decVal_append, decVal_singleton]
    have : ('0' : Char).toNat - 48 = 0 := by decide
    rw [this, pow_succ]
    ring

theorem fmtFracAux_eq (p : Nat) : ∀ (v : Nat) (acc : Str),
    fmtFracAux p v acc
      = ((if acc = [] then rstrip0 (padDigits p v) else padDigits p v ++ acc), v / 10 ^ p) := by
  induction p with
  | zero =>
    intro v acc
    cases acc <;> simp [fmtFracAux, padDigits, rstrip0]
  | succ q ih =>
    intro v acc
    by_cases hA : acc = [] ∧ v % 10 = 0
    · obtain ⟨rfl, hz⟩ := hA
      rw [fmtFracAux, if_pos (by simp [hz]), ih]
      have hdg : digitChar (v % 10) = '0' := by rw [hz]; rfl
      rw [show padDigits (q + 1) v = padDigits q (v / 10) ++ [digitChar (v % 10)] from rfl,
        hdg, rstrip0_append_zero]
      simp [Nat.div_div_eq_div_mul, pow_succ, Nat.mul_comm]
    · rw [fmtFracAux, if_neg hA, ih]
      have hne : digitChar (v % 10) :: acc ≠ [] := by simp
      rw [if_neg hne]
      have hdiv : v / 10 / 10 ^ q = v / 10 ^ (q + 1) := by
        rw [Nat.div_div_eq_div_mul, pow_succ]
        ring_nf
      by_cases hacc : acc = []
      · subst hacc
        have hz : v % 10 ≠ 0 := by tauto
        rw [if_pos rfl,
          show padDigits (q + 1) v = padDigits q (v / 10) ++ [digitChar (v % 10)] from rfl,
          rstrip0_append_ne _ (digitChar_ne_zero hz (Nat.mod_lt _ (by omega)))]
        simp [hdiv]
      · rw [if_neg hacc,
          show padDigits (q + 1) v = padDigits q (v / 10) ++ [digitChar (v % 10)] from rfl]
        simp [hdiv]

/-- Characterization of `fmtFrac`: the emitted fraction is the
zero-stripped padded digit block of `v mod 10^prec`, prefixed with a dot
when non-empty, and the returned integer is `v / 10^prec`. -/
theorem fmtFrac_eq (v p : Nat) :
    fmtFrac v p
      = (if rstrip0 (padDigits p v) = [] then [] else '.' :: rstrip0 (padDigits p v),
         v / 10 ^ p) := by
  rw [fmtFrac, fmtFracAux_eq]
  simp

/-- The stripped fraction digits reconstruct `v mod 10^p` when rescaled. -/
theorem fmtFrac_value (v p : Nat) :
    decVal 0 (rstrip0 (padDigits p v)) * 10 ^ (p - (rstrip0 (padDigits p v)).length)
      = v % 10 ^ p := by
  obtain ⟨j, hj, hlen⟩ := rstrip0_decomp (padDigits p v)
  have hplen := padDigits_length p v
  have hval : decVal 0 (padDigits p v) = v % 10 ^ p := by
    have := padDigits_decVal p v 0
    simpa using this
  rw [show p - (rstrip0 (padDigits p v)).length = j by omega, ← decVal_append_zeros, ← hj, hval]

theorem rstrip0_padDigits_length (v p : Nat) : (rstrip0 (padDigits p v)).length ≤ p := by
  obtain ⟨j, hj, hlen⟩ := rstrip0_decomp (padDigits p v)
  have := padDigits_length p v
  omega

theorem rstrip0_padDigits_digits (v p : Nat) :
    ∀ c ∈ rstrip0 (padDigits p v), isDig c = true := by
  obtain ⟨j, hj, hlen⟩ := rstrip0_decomp (padDigits p v)
  intro c hc
  exact padDigits_digits p v c (by rw [hj]; exact List.mem_append_left _ hc)

theorem pdLoop_nil (f x : Nat) : pdLoop f [] x = some x := by
  cases f <;> rfl

theorem pdFrac_nil : pdFrac [] = (0, 1, [], false) := rfl

theorem pdFrac_dot (s1 : Str) :
    pdFrac ('.' :: s1)
      = (match leadingFraction s1 0 1 false with
         | (f, scale, s2) => (f, scale, s2, decide (s2.length ≠ s1.length))) := rfl

theorem pdFrac_not_dot (c : Char) (s : Str) (h : c ≠ '.') :
    pdFrac (c :: s) = (0, 1, c :: s, false) := by
  unfold pdFrac
  split
  · next s1 heq =>
    injection heq with h1 _
    exact absurd h1 h
  · rfl

theorem isDig_false_of_unit {c : Char} (h : (c = '.' ∨ isDig c = true) → False) :
    isDig c = false := by
  cases hd : isDig c
  · rfl
  · exact absurd (Or.inr hd) h

theorem pdLoop_step (ds fds us rest tail : Str) (v unit d fuel : Nat)
    (htail : tail = (if fds = [] then [] else '.' :: fds) ++ us ++ rest)
    (hds : ∀ c ∈ ds, isDig c = true) (hne : ds ≠ [])
    (hv : decVal 0 ds = v) (hvle : v ≤ i63)
    (hfds : ∀ c ∈ fds, isDig c = true) (hfle : decVal 0 fds ≤ i63)
    (hus : us ≠ []) (husc : ∀ c ∈ us, (c = '.' ∨ isDig c = true) → False)
    (hrest : rest = [] ∨ ∃ c r, rest = c :: r ∧ (c = '.' ∨ isDig c = true))
    (hunit : unitMap us = some unit)
    (hchk1 : ¬ v > i63 / unit)
    (hchk2 : ¬ v * unit + decVal 0 fds * unit / 10 ^ fds.length > i63)
    (hchk3 : ¬ d + (v * unit + decVal 0 fds * unit / 10 ^ fds.length) > i63) :
    pdLoop (fuel + 1) (ds ++ tail) d
      = pdLoop fuel rest (d + (v * unit + decVal 0 fds * unit / 10 ^ fds.length)) := by
  obtain ⟨c, ds', rfl⟩ : ∃ c ds', ds = c :: ds' := by
    cases ds with
    | nil => exact absurd rfl hne
    | cons c t => exact ⟨c, t, rfl⟩
  obtain ⟨u1, us', rfl⟩ : ∃ u1 us', us = u1 :: us' := by
    cases us with
    | nil => exact absurd rfl hus
    | cons c t => exact ⟨c, t, rfl⟩
  have hcdig : isDig c = true := hds c (by simp)
  have hu1 : isDig u1 = false := isDig_false_of_unit (husc u1 (by simp))
  have hu1dot : u1 ≠ '.' := fun h => husc u1 (by simp) (Or.inl h)
  have htailhead : tail = [] ∨ ∃ e r, tail = e :: r ∧ isDig e = false := by
    by_cases h0 : fds = []
    · right
      refine ⟨u1, us' ++ rest, ?_, hu1⟩
      simp [htail, h0]
    · right
      refine ⟨'.', fds ++ (u1 :: us') ++ rest, ?_, by decide⟩
      simp [htail, h0]
  have hli : leadingInt ((c :: ds') ++ tail) 0 = some (v, tail) := by
    rw [← hv]
    exact leadingInt_spec _ _ _ hds (hv ▸ hvle) htailhead
  simp only [List.cons_append] at hli
  simp only [List.cons_append, List.append_eq, pdLoop]
  rw [if_neg (not_not_intro (Or.inr hcdig))]
  rw [hli]
  have hpdf : (pdFrac tail).1 = decVal 0 fds ∧ (pdFrac tail).2.1 = 10 ^ fds.length
      ∧ (pdFrac tail).2.2.1 = u1 :: (us' ++ rest) := by
    by_cases h0 : fds = []
    · subst h0
      have ht2 : tail = u1 :: (us' ++ rest) := by simp [htail]
      rw [ht2, pdFrac_not_dot u1 _ hu1dot]
      simp [decVal]
    · rw [htail, if_neg h0]
      simp only [List.cons_append, List.append_assoc]
      rw [pdFrac_dot,
        leadingFraction_spec _ _ _ _ hfds hfle (Or.inr ⟨u1, us' ++ rest, rfl, hu1⟩)]
      simp
  obtain ⟨hp1, hp2, hp3⟩ := hpdf
  have hprelen : ¬ (decide (tail.length ≠ (ds' ++ tail).length + 1) = false
      ∧ (pdFrac tail).2.2.2 = false) := by
    intro hcon
    have h1 := hcon.1
    rw [decide_eq_true
      (show tail.length ≠ (ds' ++ tail).length + 1 by simp [List.length_append]; omega)] at h1
    simp at h1
  have hul : unitLen (u1 :: (us' ++ rest)) = us'.length + 1 := by
    rw [← List.cons_append, unitLen_append _ _ husc hrest]
    rfl
  have htk : List.take (us'.length + 1) (u1 :: (us' ++ rest)) = u1 :: us' := by
    rw [List.take_succ_cons, List.take_left]
  have hdr : List.drop (us'.length + 1) (u1 :: (us' ++ rest)) = rest := by
    rw [List.drop_succ_cons, List.drop_left]
  simp only [hp1, hp2, hp3]
  rw [if_neg hprelen]
  rw [hul, htk, hdr]
  rw [if_neg (by omega)]
  rw [hunit]
  simp only []
  rw [if_neg hchk1, if_neg hchk2, if_neg hchk3]

theorem fmtInt_head (u : Nat) : ∃ c t, fmtInt u = c :: t ∧ isDig c = true := by
  cases h : fmtInt u with
  | nil => exact absurd h (fmtInt_ne_nil u)
  | cons c t =>
    exact ⟨c, t, rfl, fmtInt_digits u c (by rw [h]; simp)⟩

theorem decVal_fds_le {u p : Nat} (hu : u ≤ i63) :
    decVal 0 (rstrip0 (padDigits p u)) ≤ i63 := by
  have h1 := fmtFrac_value u p
  have h2 : decVal 0 (rstrip0 (padDigits p u))
      ≤ decVal 0 (rstrip0 (padDigits p u)) * 10 ^ (p - (rstrip0 (padDigits p u)).length) :=
    Nat.le_mul_of_pos_right _ (Nat.pos_pow_of_pos _ (by omega))
  have h3 : u % 10 ^ p ≤ u := Nat.mod_le u _
  omega

/-- Parsing one full `digits[.frac]unit` component produced by the
formatter, where the unit is the power of ten matching the fraction's
precision: consumes the component and adds `w * unitv + u % unitv`. -/
theorem pdLoop_frac_comp (u w prec unitv : Nat) (us : Str) (d fuel : Nat)
    (hprec : 10 ^ prec = unitv)
    (hus : us ≠ []) (husc : ∀ c ∈ us, (c = '.' ∨ isDig c = true) → False)
    (hunit : unitMap us = some unitv)
    (hw : ¬ w > i63 / unitv)
    (hu : u ≤ i63)
    (hv2 : w * unitv + u % unitv ≤ i63)
    (hd : d + (w * unitv + u % unitv) ≤ i63) :
    pdLoop (fuel + 1) (fmtInt w ++ (fmtFrac u prec).1 ++ us) d
      = pdLoop fuel [] (d + (w * unitv + u % unitv)) := by
  have hfds : (fmtFrac u prec).1
      = (if rstrip0 (padDigits prec u) = [] then [] else '.' :: rstrip0 (padDigits prec u)) := by
    rw [fmtFrac_eq]
  have hk := rstrip0_padDigits_length u prec
  have hval : decVal 0 (rstrip0 (padDigits prec u)) * unitv
      / 10 ^ (rstrip0 (padDigits prec u)).length = u % unitv := by
    have h1 := fmtFrac_value u prec
    have hsplit : unitv = 10 ^ (rstrip0 (padDigits prec u)).length
        * 10 ^ (prec - (rstrip0 (padDigits prec u)).length) := by
      rw [← pow_add, ← hprec]
      congr 1
      omega
    calc decVal 0 (rstrip0 (padDigits prec u)) * unitv
          / 10 ^ (rstrip0 (padDigits prec u)).length
        = decVal 0 (rstrip0 (padDigits prec u))
            * 10 ^ (prec - (rstrip0 (padDigits prec u)).length)
            * 10 ^ (rstrip0 (padDigits prec u)).length
            / 10 ^ (rstrip0 (padDigits prec u)).length := by
          rw [hsplit]; ring_nf
      _ = decVal 0 (rstrip0 (padDigits prec u))
            * 10 ^ (prec - (rstrip0 (padDigits prec u)).length) := by
          exact Nat.mul_div_cancel _ (Nat.pos_pow_of_pos _ (by omega))
      _ = u % unitv := by rw [h1, ← hprec]
  rw [List.append_assoc]
  rw [pdLoop_step (fmtInt w) (rstrip0 (padDigits prec u)) us []
    ((fmtFrac u prec).1 ++ us) w unitv d fuel
    (by rw [hfds]; simp)
    (fmtInt_digits w) (fmtInt_ne_nil w) (fmtInt_decVal w)
    (le_trans (Nat.le_of_lt_succ (Nat.lt_succ_of_le (Nat.le_refl _))) (by
      -- w ≤ i63 from hw: w ≤ i63 / unitv ≤ i63
      have := Nat.not_lt.mp hw
      exact le_trans this (Nat.div_le_self _ _)))
    (rstrip0_padDigits_digits u prec) (decVal_fds_le hu)
    hus husc (Or.inl rfl) hunit hw
    (by rw [hval]; omega)
    (by rw [hval]; omega)]
  rw [hval]


/-- Parsing one fraction-free `digits unit` component: consumes it and
adds `w * unitv`. -/
theorem pdLoop_int_comp (w unitv : Nat) (us rest : Str) (d fuel : Nat)
    (hus : us ≠ []) (husc : ∀ c ∈ us, (c = '.' ∨ isDig c = true) → False)
    (hrest : rest = [] ∨ ∃ c r, rest = c :: r ∧ (c = '.' ∨ isDig c = true))
    (hunit : unitMap us = some unitv)
    (hw : ¬ w > i63 / unitv)
    (hv2 : w * unitv ≤ i63)
    (hd : d + w * unitv ≤ i63) :
    pdLoop (fuel + 1) (fmtInt w ++ us ++ rest) d = pdLoop fuel rest (d + w * unitv) := by
  have hz : decVal 0 ([] : Str) * unitv / 10 ^ ([] : Str).length = 0 := by
    simp [decVal]
  rw [List.append_assoc]
  rw [pdLoop_step (fmtInt w) [] us rest (us ++ rest) w unitv d fuel
    (by simp)
    (fmtInt_digits w) (fmtInt_ne_nil w) (fmtInt_decVal w)
    (le_trans (Nat.not_lt.mp hw) (Nat.div_le_self _ _))
    (by simp) (by simp [decVal, i63])
    hus husc hrest hunit hw
    (by rw [hz]; omega)
    (by rw [hz]; omega)]
  rw [hz, Nat.add_zero]


theorem i63_lit : i63 = 9223372036854775807 := by norm_num [i63]

theorem pdBody_ne (s : Str) (h1 : 2 ≤ s.length) : pdBody s = pdLoop s.length s 0 := by
  rw [pdBody, if_neg, if_neg]
  · intro h; subst h; simp at h1
  · intro h; subst h; simp at h1

theorem len_succ (s : Str) (h : 1 ≤ s.length) : ∃ K, s.length = K + 1 := ⟨s.length - 1, by omega⟩

theorem durationString_core (u : Nat) :
    durationString (u : Int)
      = (if u < 1000000000 then
          if u = 0 then ['0', 's']
          else if u < 1000 then fmtInt u ++ ['n', 's']
          else if u < 1000000 then
            match fmtFrac u 3 with
            | (fr, u') => fmtInt u' ++ fr ++ ['µ', 's']
          else
            match fmtFrac u 6 with
            | (fr, u') => fmtInt u' ++ fr ++ ['m', 's']
        else
          match fmtFrac u 9 with
          | (fr, sec) =>
            let secPart := fmtInt (sec % 60) ++ fr ++ ['s']
            let m := sec / 60
            if m = 0 then secPart
            else
              (if m / 60 = 0 then [] else fmtInt (m / 60) ++ ['h'])
                ++ fmtInt (m % 60) ++ ['m'] ++ secPart) := by
  have hd0 : ¬ ((u : Int) < 0) := by omega
  rw [durationString]
  rw [if_neg hd0, Int.natAbs_ofNat]


theorem pdBody_dur (u : Nat) (hu : u ≤ i63) :
    pdBody (durationString (u : Int)) = some u := by
  have hu' : u ≤ 9223372036854775807 := by rw [← i63_lit]; exact hu
  by_cases h1 : u < 1000000000
  · by_cases h2 : u = 0
    · subst h2
      decide
    · by_cases h3 : u < 1000
      · -- nanoseconds
        rw [durationString_core, if_pos h1, if_neg h2, if_pos h3]
        rw [pdBody_ne _ (by simp; try omega)]
        obtain ⟨K, hK⟩ : ∃ K, (fmtInt u ++ ['n', 's']).length = K + 1 :=
          ⟨(fmtInt u).length + 1, by simp⟩
        rw [hK]
        rw [show fmtInt u ++ ['n', 's'] = fmtInt u ++ (fmtFrac u 0).1 ++ ['n', 's'] from by
          simp [fmtFrac, fmtFracAux]]
        rw [pdLoop_frac_comp u u 0 1 ['n', 's'] 0 K rfl (by simp; try omega) (by decide) (by decide)
          (by rw [i63_lit]; omega) hu
          (by rw [i63_lit]; omega) (by rw [i63_lit]; omega)]
        rw [pdLoop_nil]
        simp only [Option.some.injEq]
        omega
      · by_cases h4 : u < 1000000
        · -- microseconds
          rw [durationString_core, if_pos h1, if_neg h2, if_neg h3, if_pos h4]
          obtain ⟨fr, u2, hff⟩ : ∃ fr u2, fmtFrac u 3 = (fr, u2) := ⟨_, _, rfl⟩
          have hfr : (fmtFrac u 3).1 = fr := by rw [hff]
          have hu2 : u2 = u / 1000 := by
            have h := congrArg Prod.snd hff
            rw [fmtFrac_eq] at h
            norm_num at h
            omega
          rw [hff]
          simp only []
          rw [← hfr]
          subst hu2
          rw [pdBody_ne _ (by simp; try omega)]
          obtain ⟨K, hK⟩ :=
            len_succ (fmtInt (u / 1000) ++ (fmtFrac u 3).1 ++ ['µ', 's']) (by simp; try omega)
          rw [hK]
          rw [pdLoop_frac_comp u (u / 1000) 3 1000 ['µ', 's'] 0 K (by norm_num)
            (by simp; try omega) (by decide) (by decide)
            (by rw [i63_lit]; omega) hu
            (by rw [i63_lit]; omega) (by rw [i63_lit]; omega)]
          rw [pdLoop_nil]
          simp only [Option.some.injEq]
          omega
        · -- milliseconds
          rw [durationString_core, if_pos h1, if_neg h2, if_neg h3, if_neg h4]
          obtain ⟨fr, u2, hff⟩ : ∃ fr u2, fmtFrac u 6 = (fr, u2) := ⟨_, _, rfl⟩
          have hfr : (fmtFrac u 6).1 = fr := by rw [hff]
          have hu2 : u2 = u / 1000000 := by
            have h := congrArg Prod.snd hff
            rw [fmtFrac_eq] at h
            norm_num at h
            omega
          rw [hff]
          simp only []
          rw [← hfr]
          subst hu2
          rw [pdBody_ne _ (by simp; try omega)]
          obtain ⟨K, hK⟩ :=
            len_succ (fmtInt (u / 1000000) ++ (fmtFrac u 6).1 ++ ['m', 's']) (by simp; try omega)
          rw [hK]
          rw [pdLoop_frac_comp u (u / 1000000) 6 1000000 ['m', 's'] 0 K (by norm_num)
            (by simp; try omega) (by decide) (by decide)
            (by rw [i63_lit]; omega) hu
            (by rw [i63_lit]; omega) (by rw [i63_lit]; omega)]
          rw [pdLoop_nil]
          simp only [Option.some.injEq]
          omega
  · -- seconds and above
    rw [durationString_core, if_neg h1]
    obtain ⟨fr, sec, hff⟩ : ∃ fr sec, fmtFrac u 9 = (fr, sec) := ⟨_, _, rfl⟩
    have hfr : (fmtFrac u 9).1 = fr := by rw [hff]
    have hsec2 : sec = u / 1000000000 := by
      have h := congrArg Prod.snd hff
      rw [fmtFrac_eq] at h
      norm_num at h
      omega
    rw [hff]
    simp only []
    rw [← hfr]
    subst hsec2
    by_cases hm : u / 1000000000 / 60 = 0
    · -- seconds only
      rw [if_pos hm]
      rw [pdBody_ne _ (by
        simp
        have := fmtInt_length_pos (u / 1000000000 % 60)
        omega)]
      obtain ⟨K, hK⟩ :=
        len_succ (fmtInt (u / 1000000000 % 60) ++ (fmtFrac u 9).1 ++ ['s']) (by simp; try omega)
      rw [hK]
      rw [pdLoop_frac_comp u (u / 1000000000 % 60) 9 1000000000 ['s'] 0 K (by norm_num)
        (by simp; try omega) (by decide) (by decide)
        (by rw [i63_lit]; omega) hu
        (by rw [i63_lit]; omega) (by rw [i63_lit]; omega)]
      rw [pdLoop_nil]
      simp only [Option.some.injEq]
      omega
    · rw [if_neg hm]
      by_cases hh : u / 1000000000 / 60 / 60 = 0
      · -- minutes and seconds
        rw [if_pos hh]
        simp only [List.nil_append]
        rw [pdBody_ne _ (by
          simp
          have := fmtInt_length_pos (u / 1000000000 / 60 % 60)
          omega)]
        obtain ⟨K, hK⟩ :=
          len_succ (fmtInt (u / 1000000000 / 60 % 60) ++ ['m']
            ++ (fmtInt (u / 1000000000 % 60) ++ (fmtFrac u 9).1 ++ ['s'])) (by simp; try omega)
        rw [hK]
        obtain ⟨c0, t0, hct0, hcd0⟩ := fmtInt_head (u / 1000000000 % 60)
        rw [pdLoop_int_comp (u / 1000000000 / 60 % 60) 60000000000 ['m']
          (fmtInt (u / 1000000000 % 60) ++ (fmtFrac u 9).1 ++ ['s']) 0 K
          (by simp; try omega) (by decide)
          (Or.inr ⟨c0, t0 ++ (fmtFrac u 9).1 ++ ['s'], by rw [hct0]; simp, Or.inr hcd0⟩)
          (by decide)
          (by rw [i63_lit]; omega) (by rw [i63_lit]; omega) (by rw [i63_lit]; omega)]
        obtain ⟨K2, hK2⟩ : ∃ K2, K = K2 + 1 := by
          refine ⟨K - 1, ?_⟩
          have := fmtInt_length_pos (u / 1000000000 / 60 % 60)
          have := fmtInt_length_pos (u / 1000000000 % 60)
          simp at hK
          omega
        rw [hK2]
        rw [pdLoop_frac_comp u (u / 1000000000 % 60) 9 1000000000 ['s'] _ K2 (by norm_num)
          (by simp; try omega) (by decide) (by decide)
          (by rw [i63_lit]; omega) hu
          (by rw [i63_lit]; omega) (by rw [i63_lit]; omega)]
        rw [pdLoop_nil]
        simp only [Option.some.injEq]
        omega
      · -- hours, minutes and seconds
        rw [if_neg hh]
        rw [pdBody_ne _ (by
          simp
          have := fmtInt_length_pos (u / 1000000000 / 60 / 60)
          omega)]
        obtain ⟨K, hK⟩ :=
          len_succ (fmtInt (u / 1000000000 / 60 / 60) ++ ['h']
            ++ fmtInt (u / 1000000000 / 60 % 60) ++ ['m']
            ++ (fmtInt (u / 1000000000 % 60) ++ (fmtFrac u 9).1 ++ ['s'])) (by simp; try omega)
        rw [hK]
        obtain ⟨c1, t1, hct1, hcd1⟩ := fmtInt_head (u / 1000000000 / 60 % 60)
        obtain ⟨c0, t0, hct0, hcd0⟩ := fmtInt_head (u / 1000000000 % 60)
        have hassoc : fmtInt (u / 1000000000 / 60 / 60) ++ ['h']
              ++ fmtInt (u / 1000000000 / 60 % 60) ++ ['m']
              ++ (fmtInt (u / 1000000000 % 60) ++ (fmtFrac u 9).1 ++ ['s'])
            = fmtInt (u / 1000000000 / 60 / 60) ++ ['h']
              ++ (fmtInt (u / 1000000000 / 60 % 60) ++ ['m']
                ++ (fmtInt (u / 1000000000 % 60) ++ (fmtFrac u 9).1 ++ ['s'])) := by
          simp [List.append_assoc]
        rw [hassoc]
        rw [pdLoop_int_comp (u / 1000000000 / 60 / 60) 3600000000000 ['h']
          (fmtInt (u / 1000000000 / 60 % 60) ++ ['m']
            ++ (fmtInt (u / 1000000000 % 60) ++ (fmtFrac u 9).1 ++ ['s'])) 0 K
          (by simp; try omega) (by decide)
          (Or.inr ⟨c1, t1 ++ ['m'] ++ (fmtInt (u / 1000000000 % 60) ++ (fmtFrac u 9).1 ++ ['s']),
            by rw [hct1]; simp, Or.inr hcd1⟩)
          (by decide)
          (by rw [i63_lit]; omega) (by rw [i63_lit]; omega) (by rw [i63_lit]; omega)]
        obtain ⟨K2, hK2⟩ : ∃ K2, K = K2 + 1 := by
          refine ⟨K - 1, ?_⟩
          have := fmtInt_length_pos (u / 1000000000 / 60 / 60)
          simp at hK
          omega
        rw [hK2]
        rw [pdLoop_int_comp (u / 1000000000 / 60 % 60) 60000000000 ['m']
          (fmtInt (u / 1000000000 % 60) ++ (fmtFrac u 9).1 ++ ['s']) _ K2
          (by simp; try omega) (by decide)
          (Or.inr ⟨c0, t0 ++ (fmtFrac u 9).1 ++ ['s'], by rw [hct0]; simp, Or.inr hcd0⟩)
          (by decide)
          (by rw [i63_lit]; omega) (by rw [i63_lit]; omega) (by rw [i63_lit]; omega)]
        obtain ⟨K3, hK3⟩ : ∃ K3, K2 = K3 + 1 := by
          refine ⟨K2 - 1, ?_⟩
          have := fmtInt_length_pos (u / 1000000000 / 60 / 60)
          have := fmtInt_length_pos (u / 1000000000 / 60 % 60)
          simp at hK
          omega
        rw [hK3]
        rw [pdLoop_frac_comp u (u / 1000000000 % 60) 9 1000000000 ['s'] _ K3 (by norm_num)
          (by simp; try omega) (by decide) (by decide)
          (by rw [i63_lit]; omega) hu
          (by rw [i63_lit]; omega) (by rw [i63_lit]; omega)]
        rw [pdLoop_nil]
        simp only [Option.some.injEq]
        omega


theorem pdLoop_le (fuel : Nat) : ∀ (s : Str) (d r : Nat),
    pdLoop fuel s d = some r → d ≤ i63 → r ≤ i63 := by
  induction fuel with
  | zero =>
    intro s d r h hd
    cases s with
    | nil => simp [pdLoop] at h; omega
    | cons c t => simp [pdLoop] at h
  | succ f ih =>
    intro s d r h hd
    cases s with
    | nil => simp [pdLoop] at h; omega
    | cons c t =>
      simp only [pdLoop] at h
      split at h
      · simp at h
      · split at h
        · simp at h
        · split at h
          · simp at h
          · split at h
            · simp at h
            · split at h
              · simp at h
              · split at h
                · simp at h
                · split at h
                  · simp at h
                  · split at h
                    · simp at h
                    · next h3 =>
                      exact ih _ _ _ h (by omega)


theorem pdBody_le {r : Str} {u : Nat} (hr : pdBody r = some u) : u ≤ i63 := by
  rw [pdBody] at hr
  split at hr
  · simp at hr; omega
  · split at hr
    · simp at hr
    · exact pdLoop_le _ _ _ _ hr (Nat.zero_le _)

theorem parseDuration_le (s : Str) (d : Int) (h : parseDuration s = some d) :
    d.natAbs ≤ i63 := by
  cases s with
  | nil => simp [parseDuration, pdBody] at h
  | cons c r =>
    rw [parseDuration] at h
    split at h
    · rcases hb : pdBody r with _ | u
      · rw [hb] at h; simp at h
      · rw [hb] at h
        simp only [Option.map_some', Option.some.injEq] at h
        have hle := pdBody_le hb
        by_cases hc : c = '-'
        · rw [if_pos hc] at h; omega
        · rw [if_neg hc] at h; omega
    · rcases hb : pdBody (c :: r) with _ | u
      · rw [hb] at h; simp at h
      · rw [hb] at h
        simp only [Option.map_some', Option.some.injEq] at h
        have hle := pdBody_le hb
        omega

theorem durationString_neg (d : Int) (h : d < 0) :
    durationString d = '-' :: durationString (d.natAbs : Int) := by
  rw [durationString, durationString]
  rw [if_pos h, if_neg (show ¬ ((d.natAbs : Int) < 0) by omega), Int.natAbs_ofNat]

theorem durationString_head (u : Nat) :
    ∃ c t, durationString (u : Int) = c :: t ∧ isDig c = true := by
  rw [durationString_core]
  by_cases h1 : u < 1000000000
  · by_cases h2 : u = 0
    · subst h2
      rw [if_pos (by norm_num), if_pos rfl]
      exact ⟨'0', ['s'], rfl, by decide⟩
    · by_cases h3 : u < 1000
      · rw [if_pos h1, if_neg h2, if_pos h3]
        obtain ⟨c, t, hct, hcd⟩ := fmtInt_head u
        exact ⟨c, t ++ ['n', 's'], by rw [hct]; simp, hcd⟩
      · by_cases h4 : u < 1000000
        · rw [if_pos h1, if_neg h2, if_neg h3, if_pos h4]
          obtain ⟨fr, u2, hff⟩ : ∃ fr u2, fmtFrac u 3 = (fr, u2) := ⟨_, _, rfl⟩
          rw [hff]
          simp only []
          obtain ⟨c, t, hct, hcd⟩ := fmtInt_head u2
          exact ⟨c, t ++ fr ++ ['µ', 's'], by rw [hct]; simp, hcd⟩
        · rw [if_pos h1, if_neg h2, if_neg h3, if_neg h4]
          obtain ⟨fr, u2, hff⟩ : ∃ fr u2, fmtFrac u 6 = (fr, u2) := ⟨_, _, rfl⟩
          rw [hff]
          simp only []
          obtain ⟨c, t, hct, hcd⟩ := fmtInt_head u2
          exact ⟨c, t ++ fr ++ ['m', 's'], by rw [hct]; simp, hcd⟩
  · rw [if_neg h1]
    obtain ⟨fr, sec, hff⟩ : ∃ fr sec, fmtFrac u 9 = (fr, sec) := ⟨_, _, rfl⟩
    rw [hff]
    simp only []
    by_cases hm : sec / 60 = 0
    · rw [if_pos hm]
      obtain ⟨c, t, hct, hcd⟩ := fmtInt_head (sec % 60)
      exact ⟨c, t ++ fr ++ ['s'], by rw [hct]; simp, hcd⟩
    · rw [if_neg hm]
      by_cases hh : sec / 60 / 60 = 0
      · rw [if_pos hh]
        obtain ⟨c, t, hct, hcd⟩ := fmtInt_head (sec / 60 % 60)
        refine ⟨c, t ++ ['m'] ++ (fmtInt (sec % 60) ++ fr ++ ['s']), ?_, hcd⟩
        rw [hct]
        simp
      · rw [if_neg hh]
        obtain ⟨c, t, hct, hcd⟩ := fmtInt_head (sec / 60 / 60)
        refine ⟨c, t ++ ['h'] ++ fmtInt (sec / 60 % 60) ++ ['m']
          ++ (fmtInt (sec % 60) ++ fr ++ ['s']), ?_, hcd⟩
        rw [hct]
        simp

theorem isDig_ne_minus {c : Char} (h : isDig c = true) : ¬ (c = '-' ∨ c = '+') := by
  rintro (rfl | rfl) <;> simp [isDig] at h

/-- Round-trip: formatting any int64 nanosecond count with
`Duration.String` yields a string `ParseDuration` maps back to the same
value. -/
theorem parse_durationString (d : Int) (h : d.natAbs ≤ i63) :
    parseDuration (durationString d) = some d := by
  by_cases hneg : d < 0
  · rw [durationString_neg d hneg]
    rw [parseDuration]
    rw [if_pos (Or.inl rfl)]
    rw [pdBody_dur d.natAbs h]
    have habs : ((d.natAbs : Nat) : Int) = -d := by omega
    simp [habs]
  · have hd : ((d.natAbs : Int)) = d := by omega
    obtain ⟨c, t, hct, hcd⟩ := durationString_head d.natAbs
    rw [← hd, hct, parseDuration, if_neg (isDig_ne_minus hcd), ← hct,
      pdBody_dur d.natAbs h]
    simp

theorem startsWith_append (p : Str) : ∀ s : Str, startsWith p s = true ↔ ∃ t, s = p ++ t := by
  induction p with
  | nil =>
    intro s
    simp [startsWith]
  | cons a ps ih =>
    intro s
    cases s with
    | nil => simp [startsWith]
    | cons c cs =>
      simp only [startsWith, Bool.and_eq_true, decide_eq_true_eq, ih, List.cons_append,
        List.cons.injEq]
      constructor
      · rintro ⟨rfl, t, rfl⟩
        exact ⟨t, rfl, rfl⟩
      · rintro ⟨t, rfl, rfl⟩
        exact ⟨rfl, t, rfl⟩

theorem idxOf_eq_none (c : Char) : ∀ l : Str, c ∉ l → idxOf c l = none := by
  intro l
  induction l with
  | nil => intro _; rfl
  | cons x xs ih =>
    intro h
    simp only [List.mem_cons, not_or] at h
    rw [idxOf, if_neg (fun he => h.1 he.symm), ih h.2]
    rfl

theorem idxOf_isSome_of_mem (c : Char) : ∀ l : Str, c ∈ l → (idxOf c l).isSome = true := by
  intro l
  induction l with
  | nil => intro h; simp at h
  | cons x xs ih =>
    intro h
    rw [idxOf]
    by_cases he : x = c
    · rw [if_pos he]; rfl
    · rw [if_neg he]
      rcases List.mem_cons.mp h with rfl | hm
      · exact absurd rfl he
      · cases ho : idxOf c xs with
        | none =>
          have := ih hm
          rw [ho] at this
          simp at this
        | some i => rfl

theorem idxOf_take_takeWhile (c : Char) : ∀ (l : Str) (i : Nat), idxOf c l = some i →
    l.take i = l.takeWhile (fun x => x ≠ c) := by
  intro l
  induction l with
  | nil => intro i h; simp [idxOf] at h
  | cons x xs ih =>
    intro i h
    rw [idxOf] at h
    by_cases he : x = c
    · rw [if_pos he] at h
      injection h with h
      subst h
      subst he
      simp [List.takeWhile]
    · rw [if_neg he] at h
      cases ho : idxOf c xs with
      | none => rw [ho] at h; simp at h
      | some j =>
        rw [ho] at h
        simp only [Option.map_some', Option.some.injEq] at h
        subst h
        have hne : decide (x ≠ c) = true := by simpa using he
        simp only [List.take_succ_cons, List.takeWhile, hne]
        rw [ih j ho]

theorem splitNlAux_no_nl : ∀ (l cur : Str), '\n' ∉ l → splitNlAux l cur = [cur.reverse ++ l] := by
  intro l
  induction l with
  | nil => intro cur _; simp [splitNlAux]
  | cons c rest ih =>
    intro cur h
    simp only [List.mem_cons, not_or] at h
    rw [splitNlAux, if_neg (fun he => h.1 he.symm), ih (c :: cur) h.2]
    simp

theorem splitNl_no_nl (v : Str) (h : '\n' ∉ v) : splitNl v = [v] := by
  rw [splitNl, splitNlAux_no_nl v [] h]
  rfl

theorem collectLines_spec (lines : List Str)
    (h : ∀ v ∈ lines, startsWith "func Benchmark".data v = true →
      (idxOf '(' (v.drop 5)).isSome = true) :
    collectLines lines = .ok (lines.filterMap lineIdSpec) := by
  induction lines with
  | nil => rfl
  | cons v rest ih =>
    rw [collectLines]
    by_cases hp : startsWith "func Benchmark".data v = true
    · have hs := h v (by simp) hp
      cases ho : idxOf '(' (v.drop 5) with
      | none => rw [ho] at hs; simp at hs
      | some i =>
        rw [benchLineId, if_pos hp, ho]
        simp only []
        rw [ih (fun w hw hsw => h w (by simp [hw]) hsw)]
        simp only [List.filterMap_cons, lineIdSpec, if_pos hp]
        rw [idxOf_take_takeWhile '(' _ i ho]
    · rw [benchLineId, if_neg hp]
      simp only []
      rw [ih (fun w hw hsw => h w (by simp [hw]) hsw)]
      simp [List.filterMap_cons, lineIdSpec, hp]

theorem bench_line_has_paren {v : Str}
    (hp : startsWith "func Benchmark".data v = true) (hm : '(' ∈ v) :
    (idxOf '(' (v.drop 5)).isSome = true := by
  obtain ⟨t, rfl⟩ := (startsWith_append _ v).mp hp
  apply idxOf_isSome_of_mem
  have hd : ("func Benchmark".data ++ t).drop 5 = "Benchmark".data ++ t := rfl
  rw [hd]
  have : ('(' : Char) ∉ "func Benchmark".data := by decide
  simp only [List.mem_append] at hm ⊢
  rcases hm with hm | hm
  · exact absurd hm this
  · right; exact hm

/-- C3: for every set of source files, the Scanner yields exactly one
identifier per line matching the `func Benchmark` convention — the text
from the start of the name up to but not including the first `'('` — in
file order then line order, duplicates preserved (the precondition that
matching lines contain `'('` is where the code is total; see C9). -/
theorem c3_scanner (files : List Str)
    (h : ∀ f ∈ files, ∀ v ∈ splitNl f,
      startsWith "func Benchmark".data v = true → '(' ∈ v) :
    scanner files = .ok (files.flatMap (fun f => (splitNl f).filterMap lineIdSpec)) := by
  induction files with
  | nil => rfl
  | cons f fs ih =>
    rw [scanner, scanFile, collectLines_spec _ (fun v hv hp =>
      bench_line_has_paren hp (h f (by simp) v hv hp))]
    simp only []
    rw [ih (fun g hg => h g (by simp [hg]))]
    simp

theorem c3_scanner_witness :
    (∀ f ∈ ["func BenchmarkFoo(b *testing.B)\nx\nfunc BenchmarkFoo(c *T)".data],
      ∀ v ∈ splitNl f, startsWith "func Benchmark".data v = true → '(' ∈ v)
    ∧ scanner ["func BenchmarkFoo(b *testing.B)\nx\nfunc BenchmarkFoo(c *T)".data]
      = .ok (["func BenchmarkFoo(b *testing.B)\nx\nfunc BenchmarkFoo(c *T)".data].flatMap
          (fun f => (splitNl f).filterMap lineIdSpec)) :=
  ⟨by decide, c3_scanner _ (by decide)⟩

/-- C9: the Scanner is only defined when matching lines contain `'('`:
on a `func Benchmark` line with no parenthesis, `bytes.Index` returns
`-1` and the slice `v[:-1]` panics, aborting the scan — a failure mode
outside the program's `log.Fatal` error handling. -/
theorem c9_scanner_panic (v : Str) (fs : List Str)
    (h1 : startsWith "func Benchmark".data v = true)
    (h2 : '(' ∉ v) (h3 : '\n' ∉ v) :
    scanner (v :: fs) = .error () := by
  have hdrop : ('(' : Char) ∉ v.drop 5 := fun hm => h2 (List.drop_subset 5 v hm)
  rw [scanner, scanFile, splitNl_no_nl v h3, collectLines, benchLineId, if_pos h1,
    idxOf_eq_none '(' _ hdrop]

theorem c9_scanner_panic_witness :
    startsWith "func Benchmark".data "func BenchmarkFoo b *testing.B".data = true
    ∧ ('(' : Char) ∉ "func BenchmarkFoo b *testing.B".data
    ∧ ('\n' : Char) ∉ "func BenchmarkFoo b *testing.B".data
    ∧ scanner ["func BenchmarkFoo b *testing.B".data] = .error () :=
  ⟨by decide, by decide, by decide,
    c9_scanner_panic _ [] (by decide) (by decide) (by decide)⟩

theorem isDig_ne_dot {c : Char} (h : isDig c = true) : c ≠ '.' := fun hcc => by
  rw [hcc] at h
  exact absurd h (by decide)

theorem idxOf_append_cons (c : Char) (t : Str) :
    ∀ xs : Str, c ∉ xs → idxOf c (xs ++ c :: t) = some xs.length := by
  intro xs
  induction xs with
  | nil => intro _; simp [idxOf]
  | cons x ys ih =>
    intro h
    simp only [List.mem_cons, not_or] at h
    rw [List.cons_append, idxOf, if_neg (fun he => h.1 he.symm), ih h.2]
    rfl

theorem pad2_length {n : Nat} (h : n < 100) : (pad2 n).length = 2 := by
  rw [pad2]
  by_cases h10 : n < 10
  · rw [if_pos h10]; rfl
  · rw [if_neg h10, fmtInt_length_ge10 (by omega), fmtInt_length_lt10 (by omega)]

theorem render2f_length (v : Nat) :
    (render2f v).length = (fmtInt (v / 100)).length + 3 := by
  rw [render2f]
  simp [pad2_length (Nat.mod_lt v (by omega))]

theorem idxOf_dot_render2f (v : Nat) :
    idxOf '.' (render2f v) = some ((fmtInt (v / 100)).length) := by
  rw [render2f]
  exact idxOf_append_cons '.' _ _
    (fun hm => isDig_ne_dot (fmtInt_digits _ _ hm) rfl)

/-- C4: ns/op is rendered with two decimal places; when the integer part
has three or more digits — equivalently, when the decimal point sits at
string index greater than 2 — the final three characters of the rendered
string are removed before printing, and otherwise the rendered string is
printed unmodified. -/
theorem c4_nsTruncation (v : Nat) :
    idxOf '.' (render2f v) = some ((fmtInt (v / 100)).length)
    ∧ (render2f v).length = (fmtInt (v / 100)).length + 3
    ∧ (3 ≤ (fmtInt (v / 100)).length ↔ 100 ≤ v / 100)
    ∧ (3 ≤ (fmtInt (v / 100)).length →
        truncNs (render2f v) = (render2f v).take ((render2f v).length - 3)
        ∧ truncNs (render2f v) = fmtInt (v / 100))
    ∧ ((fmtInt (v / 100)).length ≤ 2 → truncNs (render2f v) = render2f v) := by
  refine ⟨idxOf_dot_render2f v, render2f_length v, fmtInt_length_ge3_iff _, ?_, ?_⟩
  · intro h3
    have htr : truncNs (render2f v) = (render2f v).take ((render2f v).length - 3) := by
      rw [truncNs, idxOf_dot_render2f v]
      simp only []
      rw [if_pos (by omega)]
    refine ⟨htr, ?_⟩
    rw [htr, render2f_length, render2f]
    rw [show (fmtInt (v / 100)).length + 3 - 3 = (fmtInt (v / 100)).length by omega]
    exact List.take_left _ _
  · intro h2
    rw [truncNs, idxOf_dot_render2f v]
    simp only []
    rw [if_neg (by omega)]

theorem c4_nsTruncation_witness :
    (3 ≤ (fmtInt (1234567 / 100)).length
      ∧ truncNs (render2f 1234567) = fmtInt (1234567 / 100))
    ∧ ((fmtInt (500 / 100)).length ≤ 2 ∧ truncNs (render2f 500) = render2f 500) :=
  ⟨⟨by decide, ((c4_nsTruncation 1234567).2.2.2.1 (by decide)).2⟩,
   ⟨by decide, (c4_nsTruncation 500).2.2.2.2 (by decide)⟩⟩

/-- C5: on a completed run, exactly one external invocation is issued
per discovered identifier, in order, with the argument list
`test -run NONE -bench ^<identifier>$`, followed by `-benchmem` if and
only if the memory-statistics flag is set. -/
theorem c5_invocations (bm : Bool) (ip : Str) (env : List Str → GoOutput)
    (ids : List Str) (cmds : List (List Str)) (ls : List Str) (t : Int)
    (h : runGoAux bm ip env ids = (cmds, .ok (ls, t))) :
    cmds = ids.map (argsFor bm)
    ∧ (∀ v : Str, argsFor bm v
        = ["test".data, "-run".data, "NONE".data, "-bench".data, '^' :: (v ++ ['$'])]
          ++ (if bm then ["-benchmem".data] else []))
    ∧ (∀ v : Str, ("-benchmem".data ∈ argsFor bm v ↔ bm = true)) := by
  refine ⟨?_, ?_, ?_⟩
  · induction ids generalizing cmds ls t with
    | nil =>
      simp only [runGoAux, Prod.mk.injEq] at h
      simp [← h.1]
    | cons v rest ih =>
      simp only [runGoAux] at h
      rcases hp : processInvPlain ip v (env (argsFor bm v)) with _ | d
      · rw [hp] at h
        simp at h
      · rw [hp] at h
        rcases hr : runGoAux bm ip env rest with ⟨cmds', r⟩
        rw [hr] at h
        cases r with
        | error e => simp at h
        | ok p =>
          rcases p with ⟨ls', t'⟩
          simp only [Prod.mk.injEq, Except.ok.injEq] at h
          obtain ⟨h1, _⟩ := h
          subst h1
          rw [List.map_cons, ih cmds' ls' t' (by rw [hr])]
  · intro v
    rw [argsFor]
    cases bm <;> simp
  · intro v
    cases bm <;> simp [argsFor]

theorem c5_invocations_witness :
    runGoAux true "p".data
        (fun _ => ⟨true, ["BenchmarkA-4 10 5 ns/op".data, "PASS".data, "ok  \tp\t1s".data]⟩)
        ["BenchmarkA".data]
      = ([["test".data, "-run".data, "NONE".data, "-bench".data,
          "^BenchmarkA$".data, "-benchmem".data]],
         .ok (["BenchmarkA-4 10 5 ns/op".data], 1000000000))
    ∧ [["test".data, "-run".data, "NONE".data, "-bench".data,
        "^BenchmarkA$".data, "-benchmem".data]]
      = ["BenchmarkA".data].map (argsFor true) :=
  ⟨by decide,
    (c5_invocations true "p".data
      (fun _ => ⟨true, ["BenchmarkA-4 10 5 ns/op".data, "PASS".data, "ok  \tp\t1s".data]⟩)
      ["BenchmarkA".data]
      [["test".data, "-run".data, "NONE".data, "-bench".data,
        "^BenchmarkA$".data, "-benchmem".data]]
      ["BenchmarkA-4 10 5 ns/op".data] 1000000000 (by decide)).1⟩

/-- C7: a result line that parses but has no optional measurement bits
set is emitted as just the padded identifier and iteration count, with
no unit suffix for any absent field. -/
theorem c7_no_tags (l : Str) (w : Nat) (b : Benchmark)
    (_hp : parseLine l = some b) (h0 : b.measured = 0) :
    formatBench w b = padRightStr b.name (w + 4) ++ padLeftStr (intStr b.n) 15 := by
  rw [formatBench, h0]
  simp

theorem c7_no_tags_witness :
    parseLine "BenchmarkX 100 5 q/op".data
      = some { name := "BenchmarkX".data, n := 100 }
    ∧ ({ name := "BenchmarkX".data, n := 100 } : Benchmark).measured = 0
    ∧ formatBench 10 { name := "BenchmarkX".data, n := 100 }
      = padRightStr "BenchmarkX".data 14 ++ padLeftStr (intStr 100) 15 :=
  ⟨by decide, by decide,
    c7_no_tags "BenchmarkX 100 5 q/op".data 10 _ (by decide) (by decide)⟩

/-- C10: with zero discovered identifiers the program issues no external
invocations and exits successfully, printing exactly `PASS` and the
trailer `ok  \t<importPath>\t0s`. -/
theorem c10_zero_bench (bm : Bool) (ip : Str) (env : List Str → GoOutput)
    (files : List Str) (h : scanner files = .ok []) :
    benchMain bm ip env files = some ([], ["PASS".data, okPref ip ++ ['0', 's']]) := by
  rw [benchMain, h]
  simp only [runGoAux]
  rfl

theorem c10_zero_bench_witness :
    scanner ([] : List Str) = .ok []
    ∧ benchMain false "p".data (fun _ => ⟨true, []⟩) []
      = some ([], ["PASS".data, okPref "p".data ++ ['0', 's']]) :=
  ⟨by decide, c10_zero_bench false "p".data (fun _ => ⟨true, []⟩) [] (by decide)⟩

theorem processInv_ok_dur (ip : Str) (w : Nat) (id : Str) (g : GoOutput)
    (line : Str) (d : Int) (h : processInv ip w id g = .ok (line, d)) :
    trailerDur ip g = some d := by
  simp only [processInv] at h
  split at h
  · simp at h
  · split at h
    · simp at h
    · split at h
      · simp at h
      · rcases hpd : parseDuration ((g.lines.getD 2 []).drop (okPref ip).length) with _ | d'
        · rw [hpd] at h
          simp at h
        · rw [hpd] at h
          simp only [Except.ok.injEq, Prod.mk.injEq] at h
          rw [trailerDur, hpd, h.2]

theorem benchLoopAux_sum (ip : Str) (w : Nat) :
    ∀ (invs : List (Str × GoOutput)) (acc : List Str) (t0 : Int) (ls : List Str) (t : Int),
    benchLoopAux ip w acc t0 invs = .ok (ls, t) →
    t = t0 + (invs.map (fun x => (trailerDur ip x.2).getD 0)).sum
    ∧ (∀ x ∈ invs, (trailerDur ip x.2).isSome = true)
    ∧ ls.length = acc.length + invs.length := by
  intro invs
  induction invs with
  | nil =>
    intro acc t0 ls t h
    simp only [benchLoopAux, Except.ok.injEq, Prod.mk.injEq] at h
    obtain ⟨h1, h2⟩ := h
    subst h1
    subst h2
    simp
  | cons x rest ih =>
    intro acc t0 ls t h
    rcases x with ⟨id, g⟩
    simp only [benchLoopAux] at h
    rcases hp : processInv ip w id g with e | p
    · rw [hp] at h
      simp at h
    · rw [hp] at h
      rcases p with ⟨line, d⟩
      obtain ⟨h1, h2, h3⟩ := ih (line :: acc) (t0 + d) ls t h
      have hd := processInv_ok_dur ip w id g line d hp
      refine ⟨?_, ?_, ?_⟩
      · rw [h1, List.map_cons, List.sum_cons, hd]
        simp only [Option.getD_some]
        ring
      · intro y hy
        rcases List.mem_cons.mp hy with rfl | hy'
        · rw [hd]; rfl
        · exact h2 y hy'
      · simp only [List.length_cons] at h3
        simp only [List.length_cons]
        omega

/-- C1: on a completed run, the accumulated total equals the exact sum
of the durations parsed from each invocation's trailer line; every
invocation contributes exactly once (one output line each, including
those whose result line fails the measurement grammar). -/
theorem c1_aggregate (ip : Str) (w : Nat) (invs : List (Str × GoOutput))
    (ls : List Str) (t : Int)
    (h : benchLoopAux ip w [] 0 invs = .ok (ls, t)) :
    t = (invs.map (fun x => (trailerDur ip x.2).getD 0)).sum
    ∧ (∀ x ∈ invs, (trailerDur ip x.2).isSome = true)
    ∧ ls.length = invs.length := by
  obtain ⟨h1, h2, h3⟩ := benchLoopAux_sum ip w invs [] 0 ls t h
  refine ⟨by rw [h1]; ring, h2, by simpa using h3⟩

theorem c1_aggregate_witness :
    benchLoopAux "p".data 6 [] 0
        [("BenchmarkA".data, ⟨true, ["BenchmarkA-4 2000".data, "PASS".data,
            "ok  \tp\t1.5s".data]⟩),
         ("BenchmarkB".data, ⟨true, ["BenchmarkB garbage".data, "PASS".data,
            "ok  \tp\t250ms".data]⟩)]
      = .ok (["BenchmarkA-4 2000".data, "BenchmarkB garbage".data], 1750000000)
    ∧ (1750000000 : Int)
      = ([(("BenchmarkA".data : Str), (⟨true, ["BenchmarkA-4 2000".data, "PASS".data,
            "ok  \tp\t1.5s".data]⟩ : GoOutput)),
          ("BenchmarkB".data, ⟨true, ["BenchmarkB garbage".data, "PASS".data,
            "ok  \tp\t250ms".data]⟩)].map
          (fun x => (trailerDur "p".data x.2).getD 0)).sum :=
  ⟨by decide,
    (c1_aggregate "p".data 6
      [(("BenchmarkA".data : Str), (⟨true, ["BenchmarkA-4 2000".data, "PASS".data,
          "ok  \tp\t1.5s".data]⟩ : GoOutput)),
       ("BenchmarkB".data, ⟨true, ["BenchmarkB garbage".data, "PASS".data,
          "ok  \tp\t250ms".data]⟩)]
      ["BenchmarkA-4 2000".data, "BenchmarkB garbage".data] 1750000000 (by decide)).1⟩


theorem fatal_processInv (ip : Str) (w : Nat) (id : Str) (g : GoOutput)
    (hf : fatalCond ip id g) : ∃ e, processInv ip w id g = .error e := by
  simp only [processInv]
  split
  · exact ⟨_, rfl⟩
  · split
    · exact ⟨_, rfl⟩
    · split
      · exact ⟨_, rfl⟩
      · next hexit hlen hshape =>
        rcases hpd : parseDuration ((g.lines.getD 2 []).drop (okPref ip).length) with _ | d
        · exact ⟨.badDuration, rfl⟩
        · exfalso
          rw [not_not] at hexit
          simp only [not_not] at hshape
          rcases hf with h | h | h | h | h | h <;>
            simp_all [trailerDur]

theorem notFatal_processInv (ip : Str) (w : Nat) (id : Str) (g : GoOutput)
    (hnf : ¬ fatalCond ip id g) :
    processInv ip w id g
      = .ok ((match parseLine (g.lines.getD 0 []) with
              | none => g.lines.getD 0 []
              | some b => formatBench w b), (trailerDur ip g).getD 0) := by
  simp only [fatalCond, not_or] at hnf
  obtain ⟨h1, h2, h3, h4, h5, h6⟩ := hnf
  have h1' : g.exitOk = true := by
    cases hb : g.exitOk
    · exact absurd hb h1
    · rfl
  have h3' : startsWith id (g.lines.getD 0 []) = true := by
    cases hb : startsWith id (g.lines.getD 0 [])
    · exact absurd hb h3
    · rfl
  have h5' : startsWith (okPref ip) (g.lines.getD 2 []) = true := by
    cases hb : startsWith (okPref ip) (g.lines.getD 2 [])
    · exact absurd hb h5
    · rfl
  have h6' : ∃ d, trailerDur ip g = some d := by
    rcases hd : trailerDur ip g with _ | d
    · rw [hd] at h6
      simp at h6
    · exact ⟨d, rfl⟩
  obtain ⟨d, hd⟩ := h6'
  simp only [processInv]
  rw [if_neg (by simp [h1']), if_neg (by omega), if_neg (by
    simp only [not_not]
    exact ⟨h3', by simpa using h4, h5'⟩)]
  rw [trailerDur] at hd
  rw [hd]
  have htd : trailerDur ip g = some d := by rw [trailerDur]; exact hd
  rw [htd]
  rfl

theorem benchLoopAux_append (ip : Str) (w : Nat) :
    ∀ (pre : List (Str × GoOutput)) (rest : List (Str × GoOutput)) (acc : List Str)
      (t0 : Int) (ls : List Str) (tp : Int),
    benchLoopAux ip w acc t0 pre = .ok (ls, tp) →
    benchLoopAux ip w acc t0 (pre ++ rest) = benchLoopAux ip w ls.reverse tp rest := by
  intro pre
  induction pre with
  | nil =>
    intro rest acc t0 ls tp h
    simp only [benchLoopAux, Except.ok.injEq, Prod.mk.injEq] at h
    obtain ⟨h1, h2⟩ := h
    subst h2
    rw [List.nil_append, ← h1, List.reverse_reverse]
  | cons x pre' ih =>
    intro rest acc t0 ls tp h
    rcases x with ⟨id, g⟩
    simp only [benchLoopAux, List.cons_append] at h ⊢
    rcases hp : processInv ip w id g with e | p
    · rw [hp] at h
      simp at h
    · rw [hp] at h
      rcases p with ⟨line, d⟩
      exact ih rest (line :: acc) (t0 + d) ls tp h

/-- C2: each of the fatal conditions — non-zero exit, fewer than three
output lines, a first line not starting with the identifier, a second
line differing from `PASS`, a third line without the
`ok  \t<importPath>\t` marker, or an unparsable trailer duration —
aborts the run at once: the loop yields an error carrying only the lines
already printed, and the whole report likewise ends with no further
per-identifier line and no final `PASS`/trailer summary.  Only a result
line rejected by the measurement-line grammar is recovered: that line is
printed verbatim and the loop continues with the next identifier. -/
theorem c2_error_handling (ip id : Str) (w : Nat) (g : GoOutput)
    (acc : List Str) (t : Int) (post : List (Str × GoOutput)) :
    (fatalCond ip id g →
      ∃ e, benchLoopAux ip w acc t ((id, g) :: post) = .error (e, acc.reverse)
        ∧ ∀ pre ls tp, benchLoopAux ip w [] 0 pre = .ok (ls, tp) →
            runBench ip w (pre ++ (id, g) :: post) = .error (e, ls))
    ∧ (¬ fatalCond ip id g → parseLine (g.lines.getD 0 []) = none →
        benchLoopAux ip w acc t ((id, g) :: post)
          = benchLoopAux ip w (g.lines.getD 0 [] :: acc)
              (t + (trailerDur ip g).getD 0) post) := by
  constructor
  · intro hf
    obtain ⟨e, he⟩ := fatal_processInv ip w id g hf
    refine ⟨e, ?_, ?_⟩
    · simp only [benchLoopAux]
      rw [he]
    · intro pre ls tp hpre
      rw [runBench, benchLoopAux_append ip w pre ((id, g) :: post) [] 0 ls tp hpre]
      rw [show benchLoopAux ip w ls.reverse tp ((id, g) :: post)
          = .error (e, ls.reverse.reverse) from by simp only [benchLoopAux]; rw [he]]
      simp
  · intro hnf hpl
    simp only [benchLoopAux]
    rw [notFatal_processInv ip w id g hnf, hpl]

theorem c2_error_handling_witness :
    (∃ e, benchLoopAux "p".data 5 [] 0 [("B".data, ⟨false, []⟩)] = .error (e, [])
      ∧ ∀ pre ls tp, benchLoopAux "p".data 5 [] 0 pre = .ok (ls, tp) →
          runBench "p".data 5 (pre ++ [("B".data, ⟨false, []⟩)]) = .error (e, ls))
    ∧ benchLoopAux "p".data 5 [] 0
        [("B".data, ⟨true, ["B-4 10".data, "PASS".data, "ok  \tp\t1s".data]⟩)]
      = benchLoopAux "p".data 5 ["B-4 10".data] (0 + 1000000000) [] :=
  ⟨(c2_error_handling "p".data "B".data 5 ⟨false, []⟩ [] 0 []).1 (by decide),
   by
    have h := (c2_error_handling "p".data "B".data 5
      ⟨true, ["B-4 10".data, "PASS".data, "ok  \tp\t1s".data]⟩ [] 0 []).2
      (by decide) (by decide)
    simpa using h⟩


/-- C6: for every trailer line `ok  \t<path>\t<duration>` whose duration
string `ParseDuration` accepts, formatting the parsed duration the way
the final summary line does (`Duration.String`) produces a string the
same parser accepts again. -/
theorem c6_duration_roundtrip (ip : Str) (g : GoOutput) (d : Int)
    (h : trailerDur ip g = some d) :
    (parseDuration (durationString d)).isSome = true := by
  rw [trailerDur] at h
  have hle := parseDuration_le _ _ h
  rw [parse_durationString d hle]
  rfl

theorem c6_duration_roundtrip_witness :
    trailerDur "p".data
        ⟨true, ["x".data, "PASS".data, "ok  \tp\t2.25s".data]⟩ = some 2250000000
    ∧ (parseDuration (durationString 2250000000)).isSome = true :=
  ⟨by decide,
    c6_duration_roundtrip "p".data
      ⟨true, ["x".data, "PASS".data, "ok  \tp\t2.25s".data]⟩ 2250000000 (by decide)⟩

end Bench
